import Mathlib

/-!
Verification of the CoderAI framework against its specification.

This file gives a shallow embedding, in Lean 4, of the parts of the
CoderAI source that the specification's claims are about:

* `src/framework/core.py`: `should_retry_error`, `adapt_tools_for_gemini`;
* `src/framework/util.py`: `function_to_json`;
* `src/framework/fn_call_converter.py`: `extract_tool_calls_from_content`,
  `convert_fn_messages_to_non_fn_messages`,
  `convert_non_fncall_messages_to_fncall_messages`;
* `src/framework/flow/workflow.py`: `WorkflowStep`, `Workflow`,
  `get_ready_steps`, `execute`.

Python dictionaries are modelled as association lists keeping insertion
order, Python exceptions as `Except`/`Option`, JSON values as an inductive
type (`JVal`) with integer numbers (floating point is out of scope), and
`json.loads` / `json.dumps` as an executable recursive-descent parser and
printer.  Fields of the source dataclasses that carry no verified meaning
(wall-clock timestamps, free-form metadata, human-readable names) are
omitted from the embedded records.
-/

/-! ## Character and substring helpers (models of Python `str` operations) -/

/-- Whitespace as Python's `str.strip` and the regex class `\s` treat it
(ASCII part: space, tab, newline, carriage return, vertical tab, form feed). -/
def isPyWs (c : Char) : Bool :=
  c = ' ' || c = '\t' || c = '\n' || c = '\r' || c = '\x0b' || c = '\x0c'

/-- Does the second list start with the first one? -/
def startsWithL : List Char → List Char → Bool
  | [], _ => true
  | _ :: _, [] => false
  | a :: as, b :: bs => a == b && startsWithL as bs

/-- Does `hay` contain `needle` as a contiguous subsequence? -/
def containsSeq (needle : List Char) : List Char → Bool
  | [] => startsWithL needle []
  | c :: cs => startsWithL needle (c :: cs) || containsSeq needle cs

/-- Substring test on strings, `needle in hay` in Python. -/
def strContains (hay needle : String) : Bool :=
  containsSeq needle.toList hay.toList

/-- The characters of `l` before the first occurrence of `pat`
(all of `l` when `pat` does not occur). -/
def takeUntilSeq (pat : List Char) : List Char → List Char
  | [] => []
  | c :: cs => if startsWithL pat (c :: cs) then [] else c :: takeUntilSeq pat cs

/-- Drop `n` characters. -/
def dropN : Nat → List Char → List Char
  | 0, l => l
  | _ + 1, [] => []
  | n + 1, _ :: cs => dropN n cs

/-- The characters of `l` after the first occurrence of `pat`,
`none` when `pat` does not occur. -/
def findAfterSeq (pat : List Char) : List Char → Option (List Char)
  | [] => if startsWithL pat [] then some [] else none
  | c :: cs =>
    if startsWithL pat (c :: cs) then some (dropN pat.length (c :: cs))
    else findAfterSeq pat cs

/-- Python `str.strip()`: remove whitespace from both ends. -/
def pyStrip (l : List Char) : List Char :=
  ((l.dropWhile isPyWs).reverse.dropWhile isPyWs).reverse

/-- Python `str.lower()` (ASCII model). -/
def pyLower (s : String) : String :=
  String.mk (s.toList.map Char.toLower)

/-! ## `should_retry_error` (src/framework/core.py, lines 43-59)

A caught exception is modelled by whether it is an instance of one of the
retryable exception classes (`APIError`, `RemoteProtocolError`,
`ConnectError`) together with its message (`str(exception)`). -/

structure PyException where
  retryableType : Bool
  msg : String

/-- Embedding of `should_retry_error`: retryable types, then substring
tests on the lowercased message. -/
def should_retry_error (e : PyException) : Bool :=
  e.retryableType ||
    (let m := pyLower e.msg
     strContains m "connection error" ||
     strContains m "server disconnected" ||
     strContains m "eof occurred" ||
     strContains m "timeout" ||
     strContains m "event loop is closed" ||
     strContains m "anthropicexception")

/-! ## `function_to_json` (src/framework/util.py, lines 16-88)

A Python callable is modelled by its signature: an ordered list of
parameters, each with a name, a type annotation and whether it has a
default value, together with the docstring. -/

inductive PyAnn where
  | noAnn
  | annInt
  | annFloat
  | annBool
  | annList
  | annDict
  | annStr
  | annOther
deriving DecidableEq

structure PyParam where
  name : String
  annotation : PyAnn
  hasDefault : Bool
deriving DecidableEq

structure PySignature where
  params : List PyParam
  doc : String

/-- The JSON-schema type string inferred from an annotation; everything
without a recognised annotation defaults to `"string"`. -/
def paramJsonType : PyAnn → String
  | .annInt => "integer"
  | .annFloat => "number"
  | .annBool => "boolean"
  | .annList => "array"
  | .annDict => "object"
  | _ => "string"

/-- The per-parameter description extracted from the docstring by the
regex `:param {name}:\s*(.*?)(?:$|:param)` followed by `.strip()`: the text
after the first `:param name:` marker, cut at the next `:param`, stripped.
(`$` can also end the capture just before a trailing newline; `strip`
erases the difference.) -/
def paramDoc (doc name : String) : String :=
  match findAfterSeq (":param " ++ name ++ ":").toList doc.toList with
  | none => ""
  | some rest => String.mk (pyStrip (takeUntilSeq ":param".toList rest))

structure PropEntry where
  name : String
  type : String
  description : String
deriving DecidableEq

structure ParamsSchema where
  properties : List PropEntry
  required : List String
deriving DecidableEq

structure FunctionSchema where
  name : String
  description : String
  parameters : ParamsSchema
deriving DecidableEq

/-- The parameter loop of `function_to_json`: build `properties` and
`required` in order, skipping the reserved name `context_variables`. -/
def buildParams (doc : String) : List PyParam → ParamsSchema
  | [] => ⟨[], []⟩
  | p :: ps =>
    let rest := buildParams doc ps
    if p.name = "context_variables" then rest
    else
      ⟨⟨p.name, paramJsonType p.annotation, paramDoc doc p.name⟩ :: rest.properties,
       if p.hasDefault then rest.required else p.name :: rest.required⟩

/-- Embedding of `function_to_json`: description is the first paragraph of
the docstring (`doc.split("\n\n")[0]`), parameters built by `buildParams`. -/
def function_to_json (fname : String) (sig : PySignature) : FunctionSchema :=
  ⟨fname, String.mk (takeUntilSeq ('\n' :: '\n' :: []) sig.doc.toList),
   buildParams sig.doc sig.params⟩


/-! ## Workflow engine (src/framework/flow/workflow.py)

A step's `function` receives the workflow context (a dict mapping step ids
and initial keys to result data) and either returns a value or raises,
modelled by `Except String V` where the `error` case carries
`str(exception)`.  The workflow's `steps` dict is modelled as a list of
steps in insertion order with (in well-formed workflows) distinct ids. -/

inductive StepStatus where
  | pending
  | running
  | completed
  | failed
  | skipped
deriving DecidableEq

inductive WfStatus where
  | pending
  | running
  | completed
  | failed
  | cancelled
  | paused
deriving DecidableEq

/-- `WorkflowStepResult`: success flag, optional data, optional error. -/
structure StepResult (V : Type) where
  success : Bool
  data : Option V
  error : Option String
deriving DecidableEq

/-- `WorkflowStep` (id, dependencies, function, status, result); the
non-semantic fields (name, description, metadata, timestamps) are omitted. -/
structure WStep (V : Type) where
  id : String
  dependencies : List String
  func : List (String × Option V) → Except String V
  status : StepStatus
  result : Option (StepResult V)

/-- The workflow context: a Python dict from step id to result data. -/
abbrev WfCtx (V : Type) := List (String × Option V)

/-- Python dict assignment `ctx[k] = v`: overwrite in place, or append. -/
def dictSet {V : Type} (ctx : WfCtx V) (k : String) (v : Option V) : WfCtx V :=
  match ctx with
  | [] => [(k, v)]
  | e :: rest => if e.fst == k then (k, v) :: rest else e :: dictSet rest k v

/-- Python `k in ctx`. -/
def dictHasKey {V : Type} (ctx : WfCtx V) (k : String) : Bool :=
  ctx.any (fun e => e.fst == k)

/-- Lookup in an association list (first match), `d.get(k)` in Python. -/
def assocFind {A : Type} (l : List (String × A)) (k : String) : Option A :=
  (l.find? (fun e => e.fst == k)).map Prod.snd

/-- `WorkflowStep.execute` (lines 92-115): run the function on the
context; on return mark COMPLETED with a success result, on an exception
mark FAILED with a failure result carrying the message.  Returns the
updated step and the result (the transient RUNNING status is internal). -/
def stepExecute {V : Type} (s : WStep V) (ctx : WfCtx V) : WStep V × StepResult V :=
  match s.func ctx with
  | Except.ok d =>
    (⟨s.id, s.dependencies, s.func, StepStatus.completed, some ⟨true, some d, none⟩⟩,
     ⟨true, some d, none⟩)
  | Except.error e =>
    (⟨s.id, s.dependencies, s.func, StepStatus.failed, some ⟨false, none, some e⟩⟩,
     ⟨false, none, some e⟩)

/-- `self.steps.get(step_id)`. -/
def lookupStep {V : Type} (steps : List (WStep V)) (i : String) : Option (WStep V) :=
  steps.find? (fun s => s.id == i)

/-- The dependency check inside `get_ready_steps`: every dependency id
resolves to a step whose status is COMPLETED. -/
def depsMet {V : Type} (steps : List (WStep V)) (s : WStep V) : Bool :=
  s.dependencies.all (fun d =>
    match lookupStep steps d with
    | some t => t.status == StepStatus.completed
    | none => false)

/-- `Workflow.get_ready_steps` (lines 190-217): the PENDING steps whose
dependencies are all COMPLETED, in step-map order. -/
def readySteps {V : Type} (steps : List (WStep V)) : List (WStep V) :=
  steps.filter (fun s => s.status == StepStatus.pending && depsMet steps s)

/-- Replace the step with the given id (the in-place mutation of a step
object that `self.steps` shares with the ready list). -/
def updateStep {V : Type} (steps : List (WStep V)) (s1 : WStep V) : List (WStep V) :=
  steps.map (fun t => if t.id == s1.id then s1 else t)

/-- The body of the `for step in ready_steps` loop of `Workflow.execute`
(lines 250-255): execute each ready step on the CURRENT context and write
`context[step.id] = result.data` immediately after it returns, before the
next step of the same batch runs.  The third component is a ghost trace
recording, for each executed step, the context its function received. -/
def runBatch {V : Type} (steps : List (WStep V)) (ctx : WfCtx V) :
    List (WStep V) → List (WStep V) × WfCtx V × List (String × WfCtx V)
  | [] => (steps, ctx, [])
  | s :: rest =>
    let er := stepExecute s ctx
    let r0 := runBatch (updateStep steps er.fst) (dictSet ctx s.id er.snd.data) rest
    (r0.fst, r0.snd.fst, (s.id, ctx) :: r0.snd.snd)

/-- The contexts received by the successive steps of a batch (a recursive
restatement of `runBatch`'s ghost trace, independent of the step list). -/
def batchCalls {V : Type} (ctx : WfCtx V) : List (WStep V) → List (String × WfCtx V)
  | [] => []
  | s :: rest => (s.id, ctx) :: batchCalls (dictSet ctx s.id (stepExecute s ctx).snd.data) rest

/-- The termination test of `Workflow.execute`: every step COMPLETED or
SKIPPED. -/
def allDone {V : Type} (steps : List (WStep V)) : Bool :=
  steps.all (fun s => s.status == StepStatus.completed || s.status == StepStatus.skipped)

/-- What `Workflow.execute` leaves behind: the final step map and shared
context, the workflow's terminal status, plus two ghost traces — the id
batches in execution order and, for each executed step, the context its
function received. -/
structure ExecResult (V : Type) where
  steps : List (WStep V)
  context : WfCtx V
  status : WfStatus
  batches : List (List String)
  calls : List (String × WfCtx V)

/-- The `while True` loop of `Workflow.execute` (lines 233-256), with
explicit fuel: each non-terminal round executes at least one pending step,
so `steps.length + 1` rounds always reach the terminal test. -/
def execLoop {V : Type} : Nat → List (WStep V) → WfCtx V → ExecResult V
  | 0, steps, ctx => ⟨steps, ctx, WfStatus.running, [], []⟩
  | fuel + 1, steps, ctx =>
    let rd := readySteps steps
    if rd.isEmpty then
      ⟨steps, ctx, if allDone steps then WfStatus.completed else WfStatus.failed, [], []⟩
    else
      let b := runBatch steps ctx rd
      let r1 := execLoop fuel b.fst b.snd.fst
      ⟨r1.steps, r1.context, r1.status, rd.map WStep.id :: r1.batches, b.snd.snd ++ r1.calls⟩

/-- `Workflow.execute` (lines 219-260) starting from a step list and an
initial context. -/
def wfExecute {V : Type} (steps : List (WStep V)) (ctx0 : WfCtx V) : ExecResult V :=
  execLoop (steps.length + 1) steps ctx0

/-- The dictionary `{step_id: step.result}` returned by `execute`
(line 260). -/
def resultMap {V : Type} (steps : List (WStep V)) : List (String × Option (StepResult V)) :=
  steps.map (fun s => (s.id, s.result))

/-! ## Concrete instances used by witnesses and example-based claims -/

/-- The signature `(name: str, time_of_day: str = "morning")` from the
spec's required-inference example. -/
def c5sig : PySignature :=
  ⟨[⟨"name", PyAnn.annStr, false⟩, ⟨"time_of_day", PyAnn.annStr, true⟩], ""⟩

/-- Step C of a 3-step readiness example: depends on `A` and `B`. -/
def w8c : WStep Nat :=
  ⟨"C", ["A", "B"], fun _ => Except.ok 0, StepStatus.pending, none⟩

/-- A 3-step workflow state in which `A` is COMPLETED but `B` still
PENDING, so `C` (depending on both) must not be ready. -/
def w8steps : List (WStep Nat) :=
  [⟨"A", [], fun _ => Except.ok 0, StepStatus.completed, none⟩,
   ⟨"B", [], fun _ => Except.ok 0, StepStatus.pending, none⟩,
   w8c]

/-- The failure-propagation workflow: independent `A` returning `va`,
`B` raising with message `eb`, and `C` depending on `B`. -/
def c7steps (V : Type) (va : V) (eb : String)
    (g : WfCtx V → Except String V) : List (WStep V) :=
  [⟨"A", [], fun _ => Except.ok va, StepStatus.pending, none⟩,
   ⟨"B", [], fun _ => Except.error eb, StepStatus.pending, none⟩,
   ⟨"C", ["B"], g, StepStatus.pending, none⟩]

/-- Step A of the batch-isolation counterexample: returns 1. -/
def c1stepA : WStep Nat := ⟨"A", [], fun _ => Except.ok 1, StepStatus.pending, none⟩

/-- Step B of the batch-isolation counterexample: returns 1 exactly when
the context it receives already contains A's result. -/
def c1stepB : WStep Nat :=
  ⟨"B", [], fun ctx => Except.ok (if dictHasKey ctx "A" then 1 else 0),
   StepStatus.pending, none⟩

/-- Two independent steps, hence members of the same ready batch. -/
def c1steps : List (WStep Nat) := [c1stepA, c1stepB]

/-- A 2-step workflow (`D` depends on `A`) for the result-map witness. -/
def c10steps : List (WStep Nat) :=
  [⟨"A", [], fun _ => Except.ok 1, StepStatus.pending, none⟩,
   ⟨"D", ["A"], fun _ => Except.ok 2, StepStatus.pending, none⟩]

/-! ## JSON values, `json.dumps` and `json.loads`
(used by src/framework/fn_call_converter.py and core.py)

JSON values are modelled with integer numbers: floating-point literals are
out of scope, and the parser below rejects a fractional part or exponent
where Python would produce a `float`.  Python strings admit lone
surrogates in `\uXXXX` escapes; Lean's `Char` cannot hold them, so the
parser rejects those too.  Objects keep all their members in textual
order; lookup takes the last occurrence of a name, as a Python dict built
by `json.loads` does. -/

mutual
inductive JVal where
  | jnull : JVal
  | jbool : Bool → JVal
  | jnum : Int → JVal
  | jstr : String → JVal
  | jarr : JArr → JVal
  | jobj : JObj → JVal
inductive JArr where
  | anil : JArr
  | acons : JVal → JArr → JArr
inductive JObj where
  | onil : JObj
  | ocons : String → JVal → JObj → JObj
end

/-- Lowercase hex digit. -/
def hexDigitChar (n : Nat) : Char :=
  if n < 10 then Char.ofNat (48 + n) else Char.ofNat (87 + n)

/-- Four lowercase hex digits, most significant first. -/
def hex4 (n : Nat) : List Char :=
  [hexDigitChar (n / 4096 % 16), hexDigitChar (n / 256 % 16),
   hexDigitChar (n / 16 % 16), hexDigitChar (n % 16)]

/-- `json.dumps` escaping of one character (`ensure_ascii=True`): the
named escapes, printable ASCII kept raw, everything else as `\uXXXX`
(astral characters as a surrogate pair). -/
def escapeChar (c : Char) : List Char :=
  if c = '"' then ['\\', '"']
  else if c = '\\' then ['\\', '\\']
  else if c = '\x08' then ['\\', 'b']
  else if c = '\x0c' then ['\\', 'f']
  else if c = '\n' then ['\\', 'n']
  else if c = '\r' then ['\\', 'r']
  else if c = '\t' then ['\\', 't']
  else if 32 ≤ c.toNat ∧ c.toNat ≤ 126 then [c]
  else if c.toNat < 65536 then '\\' :: 'u' :: hex4 c.toNat
  else
    ('\\' :: 'u' :: hex4 (55296 + (c.toNat - 65536) / 1024)) ++
      ('\\' :: 'u' :: hex4 (56320 + (c.toNat - 65536) % 1024))

/-- A rendered string literal: quote, escaped body, quote. -/
def escStr (s : String) : List Char :=
  '"' :: ((s.toList.map escapeChar).flatten ++ ['"'])

def digitChar (d : Nat) : Char := Char.ofNat (48 + d)

/-- Decimal rendering of a natural number (`str(n)` in Python). -/
def natChars (n : Nat) : List Char :=
  if n = 0 then ['0'] else (Nat.digits 10 n).reverse.map digitChar

/-- Decimal rendering of an integer (`str(i)` in Python). -/
def intChars (i : Int) : List Char :=
  if i < 0 then '-' :: natChars i.natAbs else natChars i.natAbs

/-- The newline-plus-indentation emitted between items when an `indent`
is given; nothing in compact mode. -/
def nlIndent (ind : Option Nat) (cur : Nat) : List Char :=
  match ind with
  | none => []
  | some _ => '\n' :: List.replicate cur ' '

/-- The item separator: `", "` compact, `","` plus newline-indent with an
`indent` (Python's default separators). -/
def itemSep (ind : Option Nat) (cur : Nat) : List Char :=
  match ind with
  | none => [',', ' ']
  | some _ => ',' :: nlIndent ind cur

def indentStep (ind : Option Nat) : Nat :=
  match ind with
  | none => 0
  | some k => k

mutual
/-- `json.dumps(v, indent=ind)` at current indentation `cur`, as a
character list. -/
def dumpV (ind : Option Nat) (cur : Nat) : JVal → List Char
  | .jnull => ['n', 'u', 'l', 'l']
  | .jbool true => ['t', 'r', 'u', 'e']
  | .jbool false => ['f', 'a', 'l', 's', 'e']
  | .jnum i => intChars i
  | .jstr s => escStr s
  | .jarr .anil => ['[', ']']
  | .jarr (.acons v t) =>
    '[' :: (nlIndent ind (cur + indentStep ind) ++ dumpV ind (cur + indentStep ind) v ++
      dumpA ind (cur + indentStep ind) t ++ nlIndent ind cur ++ [']'])
  | .jobj .onil => ['\x7b', '\x7d']
  | .jobj (.ocons k v t) =>
    '\x7b' :: (nlIndent ind (cur + indentStep ind) ++ escStr k ++ ':' :: ' ' ::
      (dumpV ind (cur + indentStep ind) v ++ dumpO ind (cur + indentStep ind) t ++
        nlIndent ind cur ++ ['\x7d']))
def dumpA (ind : Option Nat) (cur : Nat) : JArr → List Char
  | .anil => []
  | .acons v t => itemSep ind cur ++ dumpV ind cur v ++ dumpA ind cur t
def dumpO (ind : Option Nat) (cur : Nat) : JObj → List Char
  | .onil => []
  | .ocons k v t =>
    itemSep ind cur ++ escStr k ++ ':' :: ' ' :: (dumpV ind cur v ++ dumpO ind cur t)
end

/-- `json.dumps` as a string. -/
def pyDumps (ind : Option Nat) (v : JVal) : String := String.mk (dumpV ind 0 v)

/-! ### The parser (`json.loads`) -/

/-- The whitespace `json.loads` skips. -/
def isJsonWs (c : Char) : Bool := c = ' ' || c = '\t' || c = '\n' || c = '\r'

def skipWs : List Char → List Char
  | [] => []
  | c :: cs => if isJsonWs c then skipWs cs else c :: cs

def isDigitCh (c : Char) : Bool := 48 ≤ c.toNat && c.toNat ≤ 57

def hexVal (c : Char) : Option Nat :=
  if 48 ≤ c.toNat ∧ c.toNat ≤ 57 then some (c.toNat - 48)
  else if 97 ≤ c.toNat ∧ c.toNat ≤ 102 then some (c.toNat - 87)
  else if 65 ≤ c.toNat ∧ c.toNat ≤ 70 then some (c.toNat - 55)
  else none

def parseHex4 : List Char → Option (Nat × List Char)
  | a :: b :: c :: d :: rest =>
    (match hexVal a, hexVal b, hexVal c, hexVal d with
     | some va, some vb, some vc, some vd =>
       some (va * 4096 + vb * 256 + vc * 16 + vd, rest)
     | _, _, _, _ => none)
  | _ => none

/-- A low-surrogate continuation after a high surrogate `v`: expects
another `\uXXXX` escape in the low range and combines the pair into one
astral character. -/
def parseLowSurrogate (recf : List Char → Option (List Char × List Char))
    (v : Nat) : List Char → Option (List Char × List Char)
  | '\\' :: 'u' :: r3 =>
    (match parseHex4 r3 with
     | some (v2, rest4) =>
       if 56320 ≤ v2 ∧ v2 < 57344 then
         (recf rest4).map (fun p =>
           (Char.ofNat (65536 + (v - 55296) * 1024 + (v2 - 56320)) :: p.fst, p.snd))
       else none
     | none => none)
  | _ => none

/-- The `\uXXXX` escape: read four hex digits; a high surrogate must be
followed by a low surrogate (combined into one astral character); a lone
surrogate is rejected (Python would keep it, but Lean's `Char` cannot hold
it); anything else decodes directly.  `recf` continues with the rest of
the string body. -/
def parseUEscape (recf : List Char → Option (List Char × List Char))
    (rest : List Char) : Option (List Char × List Char) :=
  match parseHex4 rest with
  | none => none
  | some (v, rest2) =>
    if 55296 ≤ v ∧ v < 56320 then parseLowSurrogate recf v rest2
    else if 56320 ≤ v ∧ v < 57344 then none
    else (recf rest2).map (fun p => (Char.ofNat v :: p.fst, p.snd))

/-- The body of a JSON string literal after the opening quote: unescapes
up to the closing quote, rejecting raw control characters (strict mode)
and lone surrogates.  One unit of fuel per produced character. -/
def parseStrBodyStep (psb : List Char → Option (List Char × List Char)) :
    List Char → Option (List Char × List Char)
  | [] => none
  | c :: cs =>
    if c = '"' then some ([], cs)
    else if c = '\\' then
      (match cs with
       | [] => none
       | e :: rest =>
         (match e with
          | '"' => (psb rest).map (fun p => ('"' :: p.fst, p.snd))
          | '\\' => (psb rest).map (fun p => ('\\' :: p.fst, p.snd))
          | '/' => (psb rest).map (fun p => ('/' :: p.fst, p.snd))
          | 'b' => (psb rest).map (fun p => ('\x08' :: p.fst, p.snd))
          | 'f' => (psb rest).map (fun p => ('\x0c' :: p.fst, p.snd))
          | 'n' => (psb rest).map (fun p => ('\n' :: p.fst, p.snd))
          | 'r' => (psb rest).map (fun p => ('\r' :: p.fst, p.snd))
          | 't' => (psb rest).map (fun p => ('\t' :: p.fst, p.snd))
          | 'u' => parseUEscape psb rest
          | _ => none))
    else if c.toNat < 32 then none
    else (psb cs).map (fun p => (c :: p.fst, p.snd))

def parseStrBody : Nat → List Char → Option (List Char × List Char) :=
  fun n => Nat.rec (fun _ => none) (fun _ ih => parseStrBodyStep ih) n

/-- The longest initial run of decimal digits, as digit values. -/
def takeDigits : List Char → List Nat × List Char
  | [] => ([], [])
  | c :: cs =>
    if isDigitCh c then
      ((c.toNat - 48) :: (takeDigits cs).fst, (takeDigits cs).snd)
    else ([], c :: cs)

def natOfDigits (l : List Nat) : Nat := l.foldl (fun a d => 10 * a + d) 0

/-- The integer part per the JSON grammar: `0`, or a nonzero digit
followed by any digits. -/
def parseNumCore : List Char → Option (Nat × List Char)
  | [] => none
  | c :: cs =>
    if c = '0' then some (0, cs)
    else if isDigitCh c then
      some (natOfDigits (takeDigits (c :: cs)).fst, (takeDigits (c :: cs)).snd)
    else none

def floatStart (l : List Char) : Bool :=
  match l with
  | [] => false
  | c :: _ => c = '.' || c = 'e' || c = 'E'

/-- The number branch of `json.loads`.  A fractional part or exponent
after the integer part would make a Python `float`, outside this model's
data type, and is rejected here. -/
def parseNum : List Char → Option (Int × List Char)
  | [] => none
  | c :: cs =>
    if c = '-' then
      (match parseNumCore cs with
       | some (n, rest) => if floatStart rest then none else some (-(n : Int), rest)
       | none => none)
    else
      (match parseNumCore (c :: cs) with
       | some (n, rest) => if floatStart rest then none else some ((n : Int), rest)
       | none => none)

/-- The object branch after whitespace: an immediate closing brace or
one-plus members. -/
def pobjCore (pmem : List Char → Option (JObj × List Char)) :
    List Char → Option (JVal × List Char)
  | [] => (pmem []).map (fun q => (JVal.jobj q.fst, q.snd))
  | c :: rest =>
    if c = '\x7d' then some (JVal.jobj JObj.onil, rest)
    else (pmem (c :: rest)).map (fun q => (JVal.jobj q.fst, q.snd))

/-- The array branch after whitespace: an immediate closing bracket or
one-plus items. -/
def parrCore (pitems : List Char → Option (JArr × List Char)) :
    List Char → Option (JVal × List Char)
  | [] => (pitems []).map (fun q => (JVal.jarr q.fst, q.snd))
  | c :: rest =>
    if c = ']' then some (JVal.jarr JArr.anil, rest)
    else (pitems (c :: rest)).map (fun q => (JVal.jarr q.fst, q.snd))

/-- After one array item: close, or comma and further items. -/
def pitemsAfter (pitems : List Char → Option (JArr × List Char)) (v : JVal) :
    List Char → Option (JArr × List Char)
  | ']' :: r2 => some (JArr.acons v JArr.anil, r2)
  | ',' :: r2 => (pitems (skipWs r2)).map (fun q => (JArr.acons v q.fst, q.snd))
  | _ => none

/-- After one object member: close, or comma and further members. -/
def pmemAfterVal (pmem : List Char → Option (JObj × List Char)) (kc : List Char)
    (v : JVal) : List Char → Option (JObj × List Char)
  | '\x7d' :: r4 => some (JObj.ocons (String.mk kc) v JObj.onil, r4)
  | ',' :: r4 => (pmem (skipWs r4)).map (fun q => (JObj.ocons (String.mk kc) v q.fst, q.snd))
  | _ => none

/-- After an object key: colon, value, then the rest of the members. -/
def pmemAfterKey (pv : List Char → Option (JVal × List Char))
    (pmem : List Char → Option (JObj × List Char)) (kc : List Char) :
    List Char → Option (JObj × List Char)
  | ':' :: r2 =>
    (match pv (skipWs r2) with
     | some (v, r3) => pmemAfterVal pmem kc v (skipWs r3)
     | none => none)
  | _ => none

/-- The five mutually recursive parsing functions, bundled so that the
recursion on fuel is a plain `Nat.rec` (which the kernel evaluates
lazily and linearly). -/
structure ParseFns where
  pv : List Char → Option (JVal × List Char)
  pobj : List Char → Option (JVal × List Char)
  pmem : List Char → Option (JObj × List Char)
  parr : List Char → Option (JVal × List Char)
  pitems : List Char → Option (JArr × List Char)

/-- Out of fuel: every entry fails. -/
def parseFnsZero : ParseFns :=
  ⟨fun _ => none, fun _ => none, fun _ => none, fun _ => none, fun _ => none⟩

/-- One layer of the recursive-descent scanner of `json.loads`:
`pv` parses a value at the head of the input (whitespace skipped by the
callers, as in Python's scanner); `pobj`/`pmem` the inside of an object
after the brace; `parr`/`pitems` the inside of an array after the
bracket. -/
def parseFnsStep (p : ParseFns) : ParseFns where
  pv := fun l =>
    match l with
    | [] => none
    | c :: cs =>
      if c = 'n' then
        (match cs with
         | 'u' :: 'l' :: 'l' :: rest => some (JVal.jnull, rest)
         | _ => none)
      else if c = 't' then
        (match cs with
         | 'r' :: 'u' :: 'e' :: rest => some (JVal.jbool true, rest)
         | _ => none)
      else if c = 'f' then
        (match cs with
         | 'a' :: 'l' :: 's' :: 'e' :: rest => some (JVal.jbool false, rest)
         | _ => none)
      else if c = '"' then
        (match parseStrBody (cs.length + 1) cs with
         | some (body, rest2) => some (JVal.jstr (String.mk body), rest2)
         | none => none)
      else if c = '\x7b' then p.pobj cs
      else if c = '[' then p.parr cs
      else if c = '-' || isDigitCh c then
        (match parseNum (c :: cs) with
         | some (i, rest) => some (JVal.jnum i, rest)
         | none => none)
      else none
  pobj := fun l => pobjCore p.pmem (skipWs l)
  pmem := fun l =>
    match l with
    | '"' :: r =>
      (match parseStrBody (r.length + 1) r with
       | some (kc, r1) => pmemAfterKey p.pv p.pmem kc (skipWs r1)
       | none => none)
    | _ => none
  parr := fun l => parrCore p.pitems (skipWs l)
  pitems := fun l =>
    match p.pv l with
    | some (v, r1) => pitemsAfter p.pitems v (skipWs r1)
    | none => none

def parseFns : Nat → ParseFns := fun n =>
  Nat.rec parseFnsZero (fun _ ih => parseFnsStep ih) n

/-- A JSON value at the head of the input. -/
def parseVal (fuel : Nat) : List Char → Option (JVal × List Char) := (parseFns fuel).pv

/-- The inside of an object, after the opening brace. -/
def parseObj (fuel : Nat) : List Char → Option (JVal × List Char) := (parseFns fuel).pobj

/-- One or more object members separated by commas, up to the closing
brace. -/
def parseMembers (fuel : Nat) : List Char → Option (JObj × List Char) := (parseFns fuel).pmem

/-- The inside of an array, after the opening bracket. -/
def parseArr (fuel : Nat) : List Char → Option (JVal × List Char) := (parseFns fuel).parr

/-- One or more array items separated by commas, up to the closing
bracket. -/
def parseItems (fuel : Nat) : List Char → Option (JArr × List Char) := (parseFns fuel).pitems

/-- `json.loads`: skip leading whitespace, parse one value, require only
whitespace after it.  The fuel `2 * length + 8` exceeds the deepest
possible call chain on the input (each two nested calls consume at least
one character). -/
def jsonLoads (s : String) : Option JVal :=
  match parseVal (2 * s.toList.length + 8) (skipWs s.toList) with
  | some (v, rest) => if (skipWs rest).isEmpty then some v else none
  | none => none

/-- The text that may follow a serialized value without extending it: no
digit (which the number scan would swallow) and no fraction or exponent
starter. -/
def numStop : List Char → Bool
  | [] => true
  | c :: _ => !isDigitCh c && c != '.' && c != 'e' && c != 'E'

mutual
/-- Fuel sufficient for `parseVal` on the serialization of a value. -/
def fuelV : JVal → Nat
  | JVal.jnull => 1
  | JVal.jbool _ => 1
  | JVal.jnum _ => 1
  | JVal.jstr _ => 1
  | JVal.jarr a => fuelA a + 2
  | JVal.jobj o => fuelO o + 2
def fuelA : JArr → Nat
  | JArr.anil => 0
  | JArr.acons v t => fuelV v + fuelA t + 2
def fuelO : JObj → Nat
  | JObj.onil => 0
  | JObj.ocons _ v t => fuelV v + fuelO t + 2
end

/-! ### Python dict operations on parsed JSON objects -/

/-- `k in d`. -/
def jHasKey : JObj → String → Bool
  | JObj.onil, _ => false
  | JObj.ocons k0 _ tl, k => k0 == k || jHasKey tl k

/-- `d.get(k)` / `d[k]`: the last occurrence of a repeated name wins, as
in a dict built by `json.loads`. -/
def jGet : JObj → String → Option JVal
  | JObj.onil, _ => none
  | JObj.ocons k0 v tl, k =>
    match jGet tl k with
    | some w => some w
    | none => if k0 == k then some v else none

/-- `d[k] = v`: overwrite in place, or append. -/
def jSet : JObj → String → JVal → JObj
  | JObj.onil, k, v => JObj.ocons k v JObj.onil
  | JObj.ocons k0 v0 tl, k, v =>
    if k0 == k then JObj.ocons k0 v tl else JObj.ocons k0 v0 (jSet tl k v)

def jKeys : JObj → List String
  | JObj.onil => []
  | JObj.ocons k _ tl => k :: jKeys tl

def jEntries : JObj → List (String × JVal)
  | JObj.onil => []
  | JObj.ocons k v tl => (k, v) :: jEntries tl

/-- Python truthiness of a JSON-decoded value (`not params["properties"]`
is true for `None`, `False`, `0`, `""`, `[]` and an empty dict). -/
def jTruthy : JVal → Bool
  | JVal.jnull => false
  | JVal.jbool b => b
  | JVal.jnum i => i != 0
  | JVal.jstr s => s != ""
  | JVal.jarr JArr.anil => false
  | JVal.jarr _ => true
  | JVal.jobj JObj.onil => false
  | JVal.jobj _ => true

/-- `v == "some string"` in Python, for a JSON-decoded `v`. -/
def jStrEq (v : JVal) (t : String) : Bool :=
  match v with
  | JVal.jstr s => s == t
  | _ => false

/-! ## `adapt_tools_for_gemini` (src/framework/core.py, lines 64-100) -/

/-- The placeholder property injected for Gemini compatibility. -/
def dummyProp : JVal :=
  JVal.jobj (JObj.ocons "type" (JVal.jstr "string")
    (JObj.ocons "description" (JVal.jstr "Dummy property for Gemini compatibility")
      JObj.onil))

/-- `params.get("type") == "object"`. -/
def typeIsObject (o : JObj) : Bool :=
  match jGet o "type" with
  | some t => jStrEq t "object"
  | none => false

/-- Does this parameter dict need the placeholder: typed `object` with
missing or falsy `properties`? -/
def needsDummy (o : JObj) : Bool :=
  typeIsObject o &&
    (!(jHasKey o "properties") || !(jTruthy ((jGet o "properties").getD JVal.jnull)))

/-- The injected `{"dummy": {...}}` properties dict. -/
def dummySingleton : JObj := JObj.ocons "dummy" dummyProp JObj.onil

/-- The body of the `for prop_name, prop in params["properties"].items()`
loop: fix a direct property that is a dict typed `object` with missing or
falsy `properties`; leave anything else alone. -/
def adaptPropVal (prop : JVal) : JVal :=
  match prop with
  | JVal.jobj po =>
    if needsDummy po then JVal.jobj (jSet po "properties" (JVal.jobj dummySingleton))
    else JVal.jobj po
  | other => other

/-- The nested-parameter loop over all direct properties.  (No recursion
into deeper levels.) -/
def adaptProps : JObj → JObj
  | JObj.onil => JObj.onil
  | JObj.ocons k prop tl => JObj.ocons k (adaptPropVal prop) (adaptProps tl)

/-- The top-level fix of the parameters dict. -/
def topFix (po : JObj) : JObj :=
  if needsDummy po then jSet po "properties" (JVal.jobj dummySingleton) else po

/-- The parameters-dict part of `adapt_tools_for_gemini`: the top-level
fix, then the loop over direct properties.  `none` models the exception
Python raises iterating `.items()` of a non-dict `properties` value. -/
def adaptParams (po : JObj) : Option JObj :=
  if jHasKey (topFix po) "properties" then
    match jGet (topFix po) "properties" with
    | some (JVal.jobj props) =>
      some (jSet (topFix po) "properties" (JVal.jobj (adaptProps props)))
    | _ => none
  else some (topFix po)

/-- Adapt one tool dict.  `none` models the exceptions Python would raise
on a tool that is not shaped `{"function": {...}}` (KeyError/TypeError) or
whose `parameters`/`properties` entries are not dicts. -/
def adaptTool (tool : JVal) : Option JVal :=
  match tool with
  | JVal.jobj tob =>
    (match jGet tob "function" with
     | some (JVal.jobj fo) =>
       if jHasKey fo "parameters" then
         match jGet fo "parameters" with
         | some (JVal.jobj po) =>
           (adaptParams po).map (fun pp =>
             JVal.jobj (jSet tob "function" (JVal.jobj (jSet fo "parameters" (JVal.jobj pp)))))
         | _ => none
       else some tool
     | _ => none)
  | _ => none

/-- Keys are distinct in the dicts the Gemini adaptation touches (always
true of dicts built by Python, which cannot hold a repeated key; the
embedding's `JObj` is more liberal). -/
def toolWellKeyed (tool : JVal) : Bool :=
  match tool with
  | JVal.jobj tob =>
    decide ((jKeys tob).Nodup) &&
    (match jGet tob "function" with
     | some (JVal.jobj fo) =>
       decide ((jKeys fo).Nodup) &&
       (match jGet fo "parameters" with
        | some (JVal.jobj po) =>
          decide ((jKeys po).Nodup) &&
          (match jGet po "properties" with
           | some (JVal.jobj props) =>
             (jEntries props).all (fun kv =>
               match kv.snd with
               | JVal.jobj pvo => decide ((jKeys pvo).Nodup)
               | _ => true)
           | _ => true)
        | _ => true)
     | _ => true)
  | _ => true

/-- `adapt_tools_for_gemini` over the tool list. -/
def adapt_tools_for_gemini (tools : List JVal) : Option (List JVal) :=
  tools.mapM adaptTool

/-! ## `extract_tool_calls_from_content`
(src/framework/fn_call_converter.py, lines 60-93) -/

/-- Split at the first occurrence of three backticks: the characters
before it and the characters after it; `none` when it does not occur. -/
def splitAtTicks : List Char → Option (List Char × List Char)
  | [] => none
  | c :: cs =>
    if startsWithL "```".toList (c :: cs) then some ([], dropN 3 (c :: cs))
    else
      match splitAtTicks cs with
      | some p => some (c :: p.fst, p.snd)
      | none => none

/-- The scan of `re.findall(r"```tool\s*(.*?)```", content, re.DOTALL)`:
at each position, if the fixed opener matches, skip whitespace greedily
and capture lazily up to the first closing three backticks (resuming the
scan after them); otherwise, or if no closing backticks exist, advance one
character.  Fuel: every recursive call shortens the input, so
`length + 1` units always suffice. -/
def scanStep (rec : List Char → List (List Char)) : List Char → List (List Char) :=
  fun l =>
    match l with
    | [] => []
    | c :: cs =>
      if startsWithL "```tool".toList (c :: cs) then
        match splitAtTicks ((dropN 7 (c :: cs)).dropWhile isPyWs) with
        | some p => p.fst :: rec p.snd
        | none => rec cs
      else rec cs

def scanToolBlocksF : Nat → List Char → List (List Char) := fun n =>
  Nat.rec (fun _ => []) (fun _ ih => scanStep ih) n

def scanToolBlocks (l : List Char) : List (List Char) :=
  scanToolBlocksF (l.length + 1) l

/-- One extracted tool call: the dict
`{"type": "function", "function": {"name": ..., "arguments": json.dumps(...)}}`. -/
structure ExtractedCall where
  name : JVal
  argumentsStr : String

/-- The loop body for one fenced block: strip it, parse it as JSON, keep
it only if it is a dict with both `name` and `arguments` (on any other
value the Python body raises or tests false and the bare `except` skips
it). -/
def blockToCall (block : List Char) : Option ExtractedCall :=
  match jsonLoads (String.mk (pyStrip block)) with
  | some (JVal.jobj ms) =>
    if jHasKey ms "name" && jHasKey ms "arguments" then
      some ⟨(jGet ms "name").getD JVal.jnull,
            pyDumps none ((jGet ms "arguments").getD JVal.jnull)⟩
    else none
  | _ => none

/-- The `for block in tool_blocks` loop with its bare `try/except`. -/
def extractLoop : List (List Char) → List ExtractedCall
  | [] => []
  | b :: bs =>
    match blockToCall b with
    | some c => c :: extractLoop bs
    | none => extractLoop bs

/-- `extract_tool_calls_from_content`. -/
def extract_tool_calls_from_content (content : String) : List ExtractedCall :=
  extractLoop (scanToolBlocks content.toList)

/-! ## The message converters
(src/framework/fn_call_converter.py, lines 95-179) -/

/-- One entry of a message's `tool_calls` list: its `type` tag, the
`function.name` value and the `function.arguments` JSON text. -/
structure EFnCall where
  type : String
  name : JVal
  argumentsStr : String

/-- A chat message: `role`, `content` (`none` models Python `None`) and
`tool_calls`. -/
structure ChatMsg where
  role : String
  content : Option String
  toolCalls : List EFnCall

mutual
/-- Python `str()` of a JSON-decoded value, as interpolated by the
converter's f-string (only the string case is exercised by well-formed
tool calls; containers render via `repr`). -/
def pyStr : JVal → String
  | JVal.jstr s => s
  | JVal.jnull => "None"
  | JVal.jbool true => "True"
  | JVal.jbool false => "False"
  | JVal.jnum i => String.mk (intChars i)
  | JVal.jarr a => "[" ++ pyReprA a ++ "]"
  | JVal.jobj o => "\x7b" ++ pyReprO o ++ "\x7d"
/-- Python `repr()` of a JSON-decoded value (escape subtleties of string
repr are not modelled). -/
def pyRepr : JVal → String
  | JVal.jstr s => "'" ++ s ++ "'"
  | JVal.jnull => "None"
  | JVal.jbool true => "True"
  | JVal.jbool false => "False"
  | JVal.jnum i => String.mk (intChars i)
  | JVal.jarr a => "[" ++ pyReprA a ++ "]"
  | JVal.jobj o => "\x7b" ++ pyReprO o ++ "\x7d"
def pyReprA : JArr → String
  | JArr.anil => ""
  | JArr.acons v JArr.anil => pyRepr v
  | JArr.acons v t => pyRepr v ++ ", " ++ pyReprA t
def pyReprO : JObj → String
  | JObj.onil => ""
  | JObj.ocons k v JObj.onil => "'" ++ k ++ "': " ++ pyRepr v
  | JObj.ocons k v t => "'" ++ k ++ "': " ++ pyRepr v ++ ", " ++ pyReprO t
end

/-- The fenced block the converter renders for one function-typed tool
call: the f-string
`"```tool\n{\n  \"name\": \"{name}\",\n  \"arguments\": {args_str}\n}\n```\n\n"`,
where `args_str` re-serializes the arguments with `indent=2` when they
parse and keeps them verbatim otherwise. -/
def toolCallBlock (tc : EFnCall) : String :=
  let argsStr := match jsonLoads tc.argumentsStr with
    | some v => pyDumps (some 2) v
    | none => tc.argumentsStr
  "```tool\n\x7b\n  \"name\": \"" ++ pyStr tc.name ++ "\",\n  \"arguments\": " ++
    argsStr ++ "\n\x7d\n```\n\n"

/-- `convert_fn_messages_to_non_fn_messages`: assistant messages with
tool calls have their function-typed calls rendered into fenced blocks
appended to the content; everything else passes through. -/
def convert_fn_messages_to_non_fn_messages (msgs : List ChatMsg) : List ChatMsg :=
  msgs.map (fun m =>
    if m.role == "assistant" && !m.toolCalls.isEmpty then
      let blocks :=
        String.join ((m.toolCalls.filter (fun tc => tc.type == "function")).map toolCallBlock)
      ⟨m.role, some ((m.content.getD "") ++ "\n\n" ++ String.mk (pyStrip blocks.toList)), []⟩
    else m)

/-- `convert_non_fncall_messages_to_fncall_messages`: for each assistant
message, extract tool calls from its content; with at least one call the
message is replaced by `{role, content: None, tool_calls}`, otherwise kept.
`none` models the `TypeError` Python raises when an assistant message's
content is `None` (`re.findall` on `None`). -/
def convert_non_fncall_messages_to_fncall_messages :
    List ChatMsg → Option (List ChatMsg)
  | [] => some []
  | m :: rest =>
    if m.role == "assistant" then
      match m.content with
      | none => none
      | some c =>
        let tcs := extract_tool_calls_from_content c
        (convert_non_fncall_messages_to_fncall_messages rest).map (fun r =>
          if tcs.isEmpty then m :: r
          else ⟨m.role, none, tcs.map (fun ec => ⟨"function", ec.name, ec.argumentsStr⟩)⟩ :: r)
    else
      (convert_non_fncall_messages_to_fncall_messages rest).map (fun r => m :: r)

/-! ### Concrete instances for C2, C3 and C9 -/

/-- Text with one well-formed ```tool block and one malformed one. -/
def c2text : String :=
  "ok ```tool\n\x7b\"name\": \"get_weather\", \"arguments\": \x7b\"city\": \"Paris\"\x7d\x7d\n``` and ```tool\nnot json\n``` done"

/-- A native tool-call message whose name contains a double quote. -/
def c3msg : ChatMsg :=
  ⟨"assistant", some "hi", [⟨"function", JVal.jstr "a\"b", "\x7b\x7d"⟩]⟩

/-- A depth-2 nested object parameter with empty `properties`. -/
def c9innerBObj : JObj :=
  JObj.ocons "type" (JVal.jstr "object")
    (JObj.ocons "properties" (JVal.jobj JObj.onil) JObj.onil)

def c9innerB : JVal := JVal.jobj c9innerBObj

/-- An object parameter whose own `properties` are non-empty but contain
`c9innerB`. -/
def c9propA : JVal :=
  JVal.jobj (JObj.ocons "type" (JVal.jstr "object")
    (JObj.ocons "properties" (JVal.jobj (JObj.ocons "b" c9innerB JObj.onil)) JObj.onil))

def c9params : JObj :=
  JObj.ocons "type" (JVal.jstr "object")
    (JObj.ocons "properties" (JVal.jobj (JObj.ocons "a" c9propA JObj.onil)) JObj.onil)

/-- A tool whose schema nests an empty-properties object two levels down. -/
def c9tool : JVal :=
  JVal.jobj (JObj.ocons "type" (JVal.jstr "function")
    (JObj.ocons "function" (JVal.jobj (JObj.ocons "name" (JVal.jstr "f")
      (JObj.ocons "parameters" (JVal.jobj c9params) JObj.onil))) JObj.onil))

/-- A tool whose parameters dict is typed object with empty properties
(gets the placeholder injected). -/
def w9po0 : JObj :=
  JObj.ocons "type" (JVal.jstr "object")
    (JObj.ocons "properties" (JVal.jobj JObj.onil) JObj.onil)

def w9tool : JVal :=
  JVal.jobj (JObj.ocons "function"
    (JVal.jobj (JObj.ocons "parameters" (JVal.jobj w9po0) JObj.onil)) JObj.onil)

/-- What the adaptation turns `w9tool` into. -/
def w9pp : JObj :=
  JObj.ocons "type" (JVal.jstr "object")
    (JObj.ocons "properties" (JVal.jobj (JObj.ocons "dummy" dummyProp JObj.onil)) JObj.onil)

def w9fo : JObj := JObj.ocons "parameters" (JVal.jobj w9pp) JObj.onil

def w9adapted : JVal := JVal.jobj (JObj.ocons "function" (JVal.jobj w9fo) JObj.onil)

/-! ### Statement forms and helpers for the dump/parse round trip -/

/-- The inside of a dumped array: everything between `[` and `]`. -/
def arrInner (ind : Option Nat) (cur : Nat) : JArr → List Char
  | JArr.anil => []
  | JArr.acons v t =>
    nlIndent ind (cur + indentStep ind) ++ (dumpV ind (cur + indentStep ind) v ++
      (dumpA ind (cur + indentStep ind) t ++ nlIndent ind cur))

/-- The inside of a dumped object: everything between the braces. -/
def objInner (ind : Option Nat) (cur : Nat) : JObj → List Char
  | JObj.onil => []
  | JObj.ocons k v t =>
    nlIndent ind (cur + indentStep ind) ++ (escStr k ++ ':' :: ' ' ::
      (dumpV ind (cur + indentStep ind) v ++
        (dumpO ind (cur + indentStep ind) t ++ nlIndent ind cur)))

/-- `parseVal` inverts `dumpV` (at any indentation, given enough fuel and
a follower that cannot extend a number). -/
def RoundV (n : Nat) : Prop :=
  ∀ (v : JVal) (ind : Option Nat) (cur : Nat) (rest : List Char),
    fuelV v ≤ n → numStop rest = true →
    parseVal n (dumpV ind cur v ++ rest) = some (v, rest)

/-- `parseArr` inverts the inside of a dumped array. -/
def RoundA (n : Nat) : Prop :=
  ∀ (a : JArr) (ind : Option Nat) (cur : Nat) (rest : List Char),
    fuelA a + 1 ≤ n →
    parseArr n (arrInner ind cur a ++ ']' :: rest) = some (JVal.jarr a, rest)

/-- `parseObj` inverts the inside of a dumped object. -/
def RoundO (n : Nat) : Prop :=
  ∀ (o : JObj) (ind : Option Nat) (cur : Nat) (rest : List Char),
    fuelO o + 1 ≤ n →
    parseObj n (objInner ind cur o ++ '\x7d' :: rest) = some (JVal.jobj o, rest)

/-- `parseItems` inverts a dumped first item followed by the dumped tail. -/
def RoundI (n : Nat) : Prop :=
  ∀ (v : JVal) (t : JArr) (ind : Option Nat) (curI cur : Nat) (rest : List Char),
    fuelV v + fuelA t + 1 ≤ n →
    parseItems n (dumpV ind curI v ++ (dumpA ind curI t ++ (nlIndent ind cur ++ ']' :: rest))) =
      some (JArr.acons v t, rest)

/-- `parseMembers` inverts a dumped first member followed by the dumped
remaining members. -/
def RoundM (n : Nat) : Prop :=
  ∀ (k : String) (v : JVal) (t : JObj) (ind : Option Nat) (curI cur : Nat) (rest : List Char),
    fuelV v + fuelO t + 1 ≤ n →
    parseMembers n (escStr k ++ ':' :: ' ' ::
        (dumpV ind curI v ++ (dumpO ind curI t ++ (nlIndent ind cur ++ '\x7d' :: rest)))) =
      some (JObj.ocons k v t, rest)

/-- Characters that serialize to themselves inside a JSON string and
cannot close a fence: printable ASCII without quote, backslash or
backtick. -/
def rawOkB (s : String) : Bool :=
  s.toList.all (fun c => 32 ≤ c.toNat && c.toNat ≤ 126 && c != '"' && c != '\\' && c != '`')

/-- No backtick anywhere. -/
def noTick (l : List Char) : Bool := l.all (fun c => c != '`')

/-- The capture the fenced-block scan takes out of one rendered tool-call
block: everything between the opener (with its skipped newline) and the
closing fence. -/
def blockBody (tc : EFnCall) : List Char :=
  let argsStr := match jsonLoads tc.argumentsStr with
    | some v => pyDumps (some 2) v
    | none => tc.argumentsStr
  ("\x7b\n  \"name\": \"" ++ pyStr tc.name ++ "\",\n  \"arguments\": " ++
    argsStr ++ "\n\x7d\n").toList

/-- The rendered blocks of an assistant message after the final
`str.strip()`: fenced blocks separated by blank lines, the trailing blank
line removed. -/
def blocksCore : List EFnCall → List Char
  | [] => []
  | [tc] => "```tool".toList ++ '\n' :: (blockBody tc ++ "```".toList)
  | tc :: rest =>
    "```tool".toList ++ '\n' :: (blockBody tc ++ ("```".toList ++ '\n' :: '\n' :: blocksCore rest))

/-- The dict a well-formed rendered block decodes to. -/
def obj2 (nm : String) (v : JVal) : JObj :=
  JObj.ocons "name" (JVal.jstr nm) (JObj.ocons "arguments" v JObj.onil)

/-- A rendered block body after `str.strip()`: the hand-assembled
two-member object of the converter's f-string. -/
def strippedBlock (nm : String) (v : JVal) : List Char :=
  '\x7b' :: '\n' :: ' ' :: ' ' :: '"' :: 'n' :: 'a' :: 'm' :: 'e' :: '"' :: ':' :: ' ' :: '"' ::
    (nm.toList ++ ('"' :: ',' :: '\n' :: ' ' :: ' ' :: '"' :: 'a' :: 'r' :: 'g' :: 'u' ::
      'm' :: 'e' :: 'n' :: 't' :: 's' :: '"' :: ':' :: ' ' ::
        (dumpV (some 2) 0 v ++ ('\n' :: '\x7d' :: []))))

/-! Helper lemmas about `buildParams`. -/

theorem buildParams_properties (doc : String) (ps : List PyParam) :
    (buildParams doc ps).properties =
      (ps.filter (fun p => p.name != "context_variables")).map
        (fun p => ⟨p.name, paramJsonType p.annotation, paramDoc doc p.name⟩) := by
  induction ps with
  | nil => rfl
  | cons p ps ih =>
    by_cases h : p.name = "context_variables"
    · simp [buildParams, h, List.filter_cons, bne_iff_ne, ih]
    · simp [buildParams, h, List.filter_cons, bne_iff_ne, ih]

theorem buildParams_required (doc : String) (ps : List PyParam) :
    (buildParams doc ps).required =
      (ps.filter (fun p => p.name != "context_variables" && !p.hasDefault)).map
        PyParam.name := by
  induction ps with
  | nil => rfl
  | cons p ps ih =>
    by_cases h : p.name = "context_variables"
    · simp [buildParams, h, List.filter, ih]
    · by_cases hd : p.hasDefault
      · simp [buildParams, h, hd, List.filter_cons, bne_iff_ne, ih]
      · simp [buildParams, h, hd, List.filter_cons, bne_iff_ne, ih]

theorem depsMet_iff {V : Type} (steps : List (WStep V)) (s : WStep V) :
    depsMet steps s = true ↔
      ∀ d ∈ s.dependencies,
        ∃ t, lookupStep steps d = some t ∧ t.status = StepStatus.completed := by
  simp only [depsMet, List.all_eq_true]
  constructor
  · intro h d hd
    have hh := h d hd
    cases hl : lookupStep steps d with
    | none => rw [hl] at hh; simp at hh
    | some t => rw [hl] at hh; simp only [beq_iff_eq] at hh; exact ⟨t, rfl, hh⟩
  · intro h d hd
    obtain ⟨t, hl, ht⟩ := h d hd
    rw [hl]; simp [ht]

/-- C4: for every callable passed to the tool schema builder, the reserved
context-injection parameter name `context_variables` never appears in the
produced schema's `properties` or `required`, regardless of its declared
type or annotation. -/
theorem context_variables_never_in_schema (fname : String) (sig : PySignature) :
    "context_variables" ∉ (function_to_json fname sig).parameters.properties.map PropEntry.name ∧
    "context_variables" ∉ (function_to_json fname sig).parameters.required := by
  constructor
  · intro hmem
    simp only [function_to_json, buildParams_properties, List.map_map, List.mem_map,
      List.mem_filter, Function.comp, bne_iff_ne] at hmem
    obtain ⟨p, ⟨_, hne⟩, hname⟩ := hmem
    exact hne hname
  · intro hmem
    simp only [function_to_json, buildParams_required, List.mem_map, List.mem_filter,
      Bool.and_eq_true, bne_iff_ne] at hmem
    obtain ⟨p, ⟨_, hne, _⟩, hname⟩ := hmem
    exact hne hname

/-- C5: for every callable, `required` holds exactly the non-reserved
parameters without a default and `properties` every non-reserved
parameter; in particular `(name: str, time_of_day: str = "morning")`
yields `required == ["name"]` with both names in `properties`. -/
theorem required_and_properties_inference (fname : String) (sig : PySignature) :
    (∀ n : String,
        n ∈ (function_to_json fname sig).parameters.required ↔
          n ≠ "context_variables" ∧ ∃ p ∈ sig.params, p.name = n ∧ p.hasDefault = false) ∧
    (∀ n : String,
        n ∈ (function_to_json fname sig).parameters.properties.map PropEntry.name ↔
          n ≠ "context_variables" ∧ ∃ p ∈ sig.params, p.name = n) ∧
    (function_to_json "greet" c5sig).parameters.required = ["name"] ∧
    (function_to_json "greet" c5sig).parameters.properties.map PropEntry.name =
      ["name", "time_of_day"] := by
  refine ⟨?_, ?_, by decide, by decide⟩
  · intro n
    simp only [function_to_json, buildParams_required, List.mem_map, List.mem_filter,
      Bool.and_eq_true, bne_iff_ne, Bool.not_eq_true']
    constructor
    · rintro ⟨p, ⟨hp, hne, hd⟩, rfl⟩
      exact ⟨hne, p, hp, rfl, hd⟩
    · rintro ⟨hne, p, hp, rfl, hd⟩
      exact ⟨p, ⟨hp, hne, hd⟩, rfl⟩
  · intro n
    simp only [function_to_json, buildParams_properties, List.map_map, List.mem_map,
      List.mem_filter, Function.comp, bne_iff_ne]
    constructor
    · rintro ⟨p, ⟨hp, hne⟩, rfl⟩
      exact ⟨hne, p, hp, rfl⟩
    · rintro ⟨hne, p, hp, rfl⟩
      exact ⟨p, ⟨hp, hne⟩, rfl⟩

/-- C6: the retry classifier returns true for every exception whose
message contains "connection error" case-insensitively, and false for an
exception whose message is "invalid api key" and whose type is not one of
the designated retryable exception types. -/
theorem retry_classification (e : PyException)
    (h : strContains (pyLower e.msg) "connection error" = true) :
    should_retry_error e = true ∧
      should_retry_error ⟨false, "invalid api key"⟩ = false := by
  refine ⟨?_, by decide⟩
  simp [should_retry_error, h]

/-- Witness for C6 at the concrete message "HTTP Connection Error". -/
theorem retry_classification_witness :
    should_retry_error ⟨false, "HTTP Connection Error"⟩ = true ∧
      should_retry_error ⟨false, "invalid api key"⟩ = false :=
  retry_classification ⟨false, "HTTP Connection Error"⟩ (by decide)

/-- C8: a workflow step is ready iff its status is PENDING and every one
of its dependency ids resolves to a COMPLETED step of the workflow; hence
a step C depending on ids {a, b} is never ready (so never starts RUNNING)
while either dependency is not yet COMPLETED. -/
theorem ready_step_characterization {V : Type} (steps : List (WStep V)) (s : WStep V) :
    (s ∈ readySteps steps ↔
      s ∈ steps ∧ s.status = StepStatus.pending ∧
        ∀ d ∈ s.dependencies,
          ∃ t, lookupStep steps d = some t ∧ t.status = StepStatus.completed) ∧
    (∀ (a b : String) (c : WStep V), c ∈ steps → c.dependencies = [a, b] →
      ¬ ((∃ t, lookupStep steps a = some t ∧ t.status = StepStatus.completed) ∧
         (∃ u, lookupStep steps b = some u ∧ u.status = StepStatus.completed)) →
      c ∉ readySteps steps) := by
  have hmain : ∀ x : WStep V, x ∈ readySteps steps ↔
      x ∈ steps ∧ x.status = StepStatus.pending ∧
        ∀ d ∈ x.dependencies,
          ∃ t, lookupStep steps d = some t ∧ t.status = StepStatus.completed := by
    intro x
    simp only [readySteps, List.mem_filter, Bool.and_eq_true, beq_iff_eq, depsMet_iff,
      and_assoc]
  refine ⟨hmain s, ?_⟩
  intro a b c hc hdeps hnot hready
  obtain ⟨-, -, hall⟩ := (hmain c).mp hready
  rw [hdeps] at hall
  exact hnot ⟨hall a (by simp), hall b (by simp)⟩

/-- Witness for C8: in `w8steps`, where A is COMPLETED but B is PENDING,
step C (depending on A and B) is not in the ready set. -/
theorem ready_step_characterization_witness : w8c ∉ readySteps w8steps := by
  refine (ready_step_characterization w8steps w8c).2 "A" "B" w8c ?_ rfl ?_
  · exact List.mem_cons_of_mem _ (List.mem_cons_of_mem _ (List.mem_cons_self _ _))
  · rintro ⟨-, u, hu, hus⟩
    have hb : lookupStep w8steps "B" =
        some ⟨"B", [], fun _ => Except.ok 0, StepStatus.pending, none⟩ := rfl
    rw [hb] at hu
    cases hu
    exact StepStatus.noConfusion hus

/-- C7: in a workflow with independent step A, step B whose function
raises with message `eb`, and step C depending on B: B ends FAILED with a
failure result carrying `eb`, C never appears in any executed batch and
stays PENDING, the workflow's terminal status is FAILED, and A still
executes to COMPLETED with its result present in the returned map. -/
theorem workflow_failure_propagation (V : Type) (va : V) (eb : String)
    (g : WfCtx V → Except String V) :
    ((lookupStep (wfExecute (c7steps V va eb g) []).steps "B").map WStep.status =
        some StepStatus.failed) ∧
    ((lookupStep (wfExecute (c7steps V va eb g) []).steps "B").map WStep.result =
        some (some ⟨false, none, some eb⟩)) ∧
    ((lookupStep (wfExecute (c7steps V va eb g) []).steps "C").map WStep.status =
        some StepStatus.pending) ∧
    ("C" ∉ (wfExecute (c7steps V va eb g) []).batches.flatten) ∧
    ((wfExecute (c7steps V va eb g) []).status = WfStatus.failed) ∧
    ((lookupStep (wfExecute (c7steps V va eb g) []).steps "A").map WStep.status =
        some StepStatus.completed) ∧
    (assocFind (resultMap (wfExecute (c7steps V va eb g) []).steps) "A" =
        some (some ⟨true, some va, none⟩)) := by
  refine ⟨rfl, rfl, rfl, ?_, rfl, rfl, rfl⟩
  intro hmem
  have : (wfExecute (c7steps V va eb g) []).batches.flatten = ["A", "B"] := rfl
  rw [this] at hmem
  simp at hmem

/-! Lemmas about `updateStep`, `runBatch` and `execLoop`. -/

theorem updateStep_map_id {V : Type} (steps : List (WStep V)) (s1 : WStep V) :
    (updateStep steps s1).map WStep.id = steps.map WStep.id := by
  induction steps with
  | nil => rfl
  | cons t ts ih =>
    by_cases h : t.id == s1.id
    · simp only [updateStep, List.map_cons] at ih ⊢
      rw [if_pos h, ih]
      simp only [beq_iff_eq] at h
      rw [h]
    · simp only [updateStep, List.map_cons] at ih ⊢
      rw [if_neg h, ih]

theorem lookupStep_updateStep_ne {V : Type} (steps : List (WStep V)) (s1 : WStep V)
    (i : String) (h : i ≠ s1.id) :
    lookupStep (updateStep steps s1) i = lookupStep steps i := by
  induction steps with
  | nil => rfl
  | cons t ts ih =>
    by_cases ht : t.id == s1.id
    · have hti : (s1.id == i) = false := by
        simp only [beq_eq_false_iff_ne]; exact fun hh => h hh.symm
      have hti2 : (t.id == i) = false := by
        simp only [beq_iff_eq] at ht
        simp only [beq_eq_false_iff_ne, ht]
        exact fun hh => h hh.symm
      simp only [updateStep, lookupStep, List.map_cons, List.find?] at ih ⊢
      rw [if_pos ht, hti, hti2]
      exact ih
    · simp only [updateStep, lookupStep, List.map_cons, List.find?] at ih ⊢
      rw [if_neg ht]
      cases hti : t.id == i
      · exact ih
      · rfl

theorem lookupStep_updateStep_self {V : Type} (steps : List (WStep V)) (s1 : WStep V)
    (h : s1.id ∈ steps.map WStep.id) :
    lookupStep (updateStep steps s1) s1.id = some s1 := by
  induction steps with
  | nil => simp at h
  | cons t ts ih =>
    by_cases ht : t.id == s1.id
    · simp only [updateStep, lookupStep, List.find?]
      rw [if_pos ht, beq_self_eq_true]
    · simp only [updateStep, lookupStep, List.find?]
      rw [if_neg ht]
      have hne : (t.id == s1.id) = false := by exact Bool.not_eq_true _ ▸ by simpa using ht
      simp only [beq_eq_false_iff_ne] at hne
      have hne2 : (t.id == s1.id) = false := beq_eq_false_iff_ne.mpr hne
      rw [show (t.id == s1.id) = false from hne2]
      have hmem : s1.id ∈ ts.map WStep.id := by
        rcases List.mem_cons.mp h with hh | hh
        · exact absurd hh.symm hne
        · exact hh
      exact ih hmem

theorem lookupStep_of_nodup {V : Type} (steps : List (WStep V)) (s : WStep V)
    (hnd : (steps.map WStep.id).Nodup) (hs : s ∈ steps) :
    lookupStep steps s.id = some s := by
  induction steps with
  | nil => simp at hs
  | cons t ts ih =>
    rcases List.mem_cons.mp hs with rfl | hmem
    · simp [lookupStep, List.find?]
    · have hnd2 : (ts.map WStep.id).Nodup := (List.nodup_cons.mp hnd).2
      have htid : t.id ∉ ts.map WStep.id := (List.nodup_cons.mp hnd).1
      have hne : (t.id == s.id) = false := by
        simp only [beq_eq_false_iff_ne]
        intro hh
        exact htid (hh ▸ List.mem_map.mpr ⟨s, hmem, rfl⟩)
      simp only [lookupStep, List.find?, hne] at ih ⊢
      exact ih hnd2 hmem

theorem runBatch_map_id {V : Type} (batch : List (WStep V)) :
    ∀ (steps : List (WStep V)) (ctx : WfCtx V),
      ((runBatch steps ctx batch).fst).map WStep.id = steps.map WStep.id := by
  induction batch with
  | nil => intro steps ctx; rfl
  | cons s rest ih =>
    intro steps ctx
    simp only [runBatch]
    rw [ih, updateStep_map_id]

theorem runBatch_lookup_notin {V : Type} (batch : List (WStep V)) :
    ∀ (steps : List (WStep V)) (ctx : WfCtx V) (i : String),
      i ∉ batch.map WStep.id →
      lookupStep (runBatch steps ctx batch).fst i = lookupStep steps i := by
  induction batch with
  | nil => intro steps ctx i _; rfl
  | cons s rest ih =>
    intro steps ctx i hi
    simp only [List.map_cons, List.mem_cons] at hi
    push_neg at hi
    simp only [runBatch]
    rw [ih _ _ _ hi.2]
    exact lookupStep_updateStep_ne _ _ _ (by
      intro hh
      exact hi.1 (by
        have : (stepExecute s ctx).fst.id = s.id := by
          cases hsf : s.func ctx <;> simp [stepExecute, hsf]
        rw [← this, ← hh]))

theorem stepExecute_id {V : Type} (s : WStep V) (ctx : WfCtx V) :
    (stepExecute s ctx).fst.id = s.id := by
  cases hsf : s.func ctx <;> simp [stepExecute, hsf]

theorem stepExecute_nonpending {V : Type} (s : WStep V) (ctx : WfCtx V) :
    (stepExecute s ctx).fst.status ≠ StepStatus.pending ∧
      (stepExecute s ctx).fst.result ≠ none := by
  cases hsf : s.func ctx <;> simp [stepExecute, hsf]

theorem runBatch_lookup_in {V : Type} (batch : List (WStep V)) :
    ∀ (steps : List (WStep V)) (ctx : WfCtx V),
      (batch.map WStep.id).Nodup →
      ∀ s ∈ batch, s.id ∈ steps.map WStep.id →
        ∃ t, lookupStep (runBatch steps ctx batch).fst s.id = some t ∧
          t.status ≠ StepStatus.pending ∧ t.result ≠ none := by
  induction batch with
  | nil => intro steps ctx _ s hs; simp at hs
  | cons s0 rest ih =>
    intro steps ctx hnd s hs hmem
    have hnd2 : (rest.map WStep.id).Nodup := (List.nodup_cons.mp hnd).2
    have h0 : s0.id ∉ rest.map WStep.id := (List.nodup_cons.mp hnd).1
    rcases List.mem_cons.mp hs with rfl | hrest
    · simp only [runBatch]
      rw [runBatch_lookup_notin rest _ _ _ h0]
      have hupd : lookupStep (updateStep steps (stepExecute s ctx).fst)
          ((stepExecute s ctx).fst.id) = some (stepExecute s ctx).fst :=
        lookupStep_updateStep_self _ _ (by rw [stepExecute_id]; exact hmem)
      rw [stepExecute_id] at hupd
      exact ⟨_, hupd, stepExecute_nonpending s ctx⟩
    · simp only [runBatch]
      exact ih _ _ hnd2 s hrest (by rw [updateStep_map_id]; exact hmem)

theorem execLoop_map_id {V : Type} (fuel : Nat) :
    ∀ (steps : List (WStep V)) (ctx : WfCtx V),
      ((execLoop fuel steps ctx).steps).map WStep.id = steps.map WStep.id := by
  induction fuel with
  | zero => intro steps ctx; rfl
  | succ fuel ih =>
    intro steps ctx
    simp only [execLoop]
    by_cases h : (readySteps steps).isEmpty
    · rw [if_pos h]
    · rw [if_neg h]
      simp only []
      rw [ih, runBatch_map_id]

theorem execLoop_lookup_notin {V : Type} (fuel : Nat) :
    ∀ (steps : List (WStep V)) (ctx : WfCtx V) (i : String),
      i ∉ (execLoop fuel steps ctx).batches.flatten →
      lookupStep (execLoop fuel steps ctx).steps i = lookupStep steps i := by
  induction fuel with
  | zero => intro steps ctx i _; rfl
  | succ fuel ih =>
    intro steps ctx i hi
    simp only [execLoop] at hi ⊢
    by_cases h : (readySteps steps).isEmpty
    · rw [if_pos h] at hi ⊢
    · rw [if_neg h] at hi ⊢
      simp only [List.flatten_cons, List.mem_append] at hi
      push_neg at hi
      rw [ih _ _ _ hi.2, runBatch_lookup_notin _ _ _ _ hi.1]

theorem execLoop_lookup_nonpending {V : Type} (fuel : Nat) :
    ∀ (steps : List (WStep V)) (ctx : WfCtx V) (i : String) (t : WStep V),
      (steps.map WStep.id).Nodup →
      lookupStep steps i = some t → t.status ≠ StepStatus.pending →
      lookupStep (execLoop fuel steps ctx).steps i = some t := by
  induction fuel with
  | zero => intro steps ctx i t _ hl _; exact hl
  | succ fuel ih =>
    intro steps ctx i t hnd hl ht
    simp only [execLoop]
    by_cases h : (readySteps steps).isEmpty
    · rw [if_pos h]; exact hl
    · rw [if_neg h]
      simp only []
      have hnotin : i ∉ (readySteps steps).map WStep.id := by
        intro hmem
        obtain ⟨s, hs, hsid⟩ := List.mem_map.mp hmem
        have hsp : s ∈ steps ∧ s.status = StepStatus.pending := by
          have := List.mem_filter.mp hs
          exact ⟨this.1, by
            have := this.2
            simp only [Bool.and_eq_true, beq_iff_eq] at this
            exact this.1⟩
        have : lookupStep steps s.id = some s := lookupStep_of_nodup steps s hnd hsp.1
        rw [hsid, hl] at this
        cases this
        exact ht hsp.2
      have hb : lookupStep (runBatch steps ctx (readySteps steps)).fst i = some t := by
        rw [runBatch_lookup_notin _ _ _ _ hnotin]; exact hl
      exact ih _ _ _ _ (by rw [runBatch_map_id]; exact hnd) hb ht

theorem execLoop_executed {V : Type} (fuel : Nat) :
    ∀ (steps : List (WStep V)) (ctx : WfCtx V) (i : String),
      (steps.map WStep.id).Nodup →
      i ∈ (execLoop fuel steps ctx).batches.flatten →
      ∃ t, lookupStep (execLoop fuel steps ctx).steps i = some t ∧
        t.status ≠ StepStatus.pending ∧ t.result ≠ none := by
  induction fuel with
  | zero => intro steps ctx i _ hi; simp [execLoop] at hi
  | succ fuel ih =>
    intro steps ctx i hnd hi
    simp only [execLoop] at hi ⊢
    by_cases h : (readySteps steps).isEmpty
    · rw [if_pos h] at hi; simp at hi
    · rw [if_neg h] at hi ⊢
      simp only [List.flatten_cons, List.mem_append] at hi
      simp only []
      have hndb : (steps.map WStep.id).Nodup := hnd
      have hnd2 : ((runBatch steps ctx (readySteps steps)).fst.map WStep.id).Nodup := by
        rw [runBatch_map_id]; exact hnd
      by_cases hin : i ∈ (execLoop fuel (runBatch steps ctx (readySteps steps)).fst
          (runBatch steps ctx (readySteps steps)).snd.fst).batches.flatten
      · exact ih _ _ _ hnd2 hin
      · have hfirst : i ∈ (readySteps steps).map WStep.id := by
          rcases hi with hh | hh
          · exact hh
          · exact absurd hh hin
        obtain ⟨s, hs, hsid⟩ := List.mem_map.mp hfirst
        have hrnd : ((readySteps steps).map WStep.id).Nodup :=
          List.Nodup.sublist ((List.filter_sublist _).map WStep.id) hnd
        have hsmem : s.id ∈ steps.map WStep.id :=
          List.mem_map.mpr ⟨s, List.mem_of_mem_filter hs, rfl⟩
        obtain ⟨t, hlt, htp, htr⟩ :=
          runBatch_lookup_in (readySteps steps) steps ctx hrnd s hs hsmem
        refine ⟨t, ?_, htp, htr⟩
        rw [← hsid]
        exact execLoop_lookup_nonpending fuel _ _ _ _ hnd2 hlt htp

theorem assocFind_resultMap {V : Type} (steps : List (WStep V)) (i : String) :
    assocFind (resultMap steps) i = (lookupStep steps i).map WStep.result := by
  induction steps with
  | nil => rfl
  | cons t ts ih =>
    simp only [resultMap, assocFind, lookupStep, List.map_cons, List.find?] at ih ⊢
    cases h : t.id == i
    · simpa [h] using ih
    · simp [h]

/-- C10: the map returned by `Workflow.execute` has an entry for every
step id of the workflow, and a step's entry is `None` exactly when that
step never started executing (it appeared in no executed batch). -/
theorem execute_result_map {V : Type} (steps : List (WStep V)) (ctx0 : WfCtx V)
    (hnd : (steps.map WStep.id).Nodup)
    (hinit : ∀ s ∈ steps, s.status = StepStatus.pending ∧ s.result = none) :
    ((resultMap (wfExecute steps ctx0).steps).map Prod.fst = steps.map WStep.id) ∧
    (∀ s ∈ steps,
      (assocFind (resultMap (wfExecute steps ctx0).steps) s.id = some none ↔
        s.id ∉ (wfExecute steps ctx0).batches.flatten)) := by
  simp only [wfExecute]
  constructor
  · have h1 : (resultMap (execLoop (steps.length + 1) steps ctx0).steps).map Prod.fst
        = ((execLoop (steps.length + 1) steps ctx0).steps).map WStep.id := by
      simp only [resultMap, List.map_map]
      rfl
    rw [h1]
    exact execLoop_map_id _ _ _
  · intro s hs
    constructor
    · intro hfind hflat
      obtain ⟨t, hlt, htp, htr⟩ := execLoop_executed _ _ _ _ hnd hflat
      rw [assocFind_resultMap, hlt] at hfind
      simp at hfind
      exact htr hfind
    · intro hflat
      rw [assocFind_resultMap]
      rw [execLoop_lookup_notin _ _ _ _ hflat]
      rw [lookupStep_of_nodup steps s hnd hs]
      simp [(hinit s hs).2]

/-- Witness for C10 on the concrete 2-step workflow `c10steps`. -/
theorem execute_result_map_witness :
    (resultMap (wfExecute c10steps []).steps).map Prod.fst = c10steps.map WStep.id :=
  (execute_result_map c10steps [] (by decide) (by decide)).1

/-! Lemmas about the contexts the steps of one ready batch receive. -/

theorem dictHasKey_dictSet {V : Type} (ctx : WfCtx V) (k0 : String) (v : Option V)
    (k : String) :
    dictHasKey (dictSet ctx k0 v) k = ((k0 == k) || dictHasKey ctx k) := by
  induction ctx with
  | nil => simp [dictSet, dictHasKey]
  | cons e rest ih =>
    simp only [dictSet, dictHasKey] at ih ⊢
    by_cases h : e.fst == k0
    · rw [if_pos h]
      simp only [List.any_cons]
      have he : e.fst = k0 := by simpa using h
      rw [he]
      cases hk : k0 == k <;> simp [hk]
    · rw [if_neg h]
      simp only [List.any_cons]
      rw [ih]
      cases hk : e.fst == k <;> cases hk0 : k0 == k <;> simp [hk, hk0]

theorem batchCalls_fst {V : Type} (batch : List (WStep V)) :
    ∀ ctx : WfCtx V, (batchCalls ctx batch).map Prod.fst = batch.map WStep.id := by
  induction batch with
  | nil => intro ctx; rfl
  | cons s rest ih => intro ctx; simp only [batchCalls, List.map_cons, ih]

theorem runBatch_calls {V : Type} (batch : List (WStep V)) :
    ∀ (steps : List (WStep V)) (ctx : WfCtx V),
      (runBatch steps ctx batch).snd.snd = batchCalls ctx batch := by
  induction batch with
  | nil => intro steps ctx; rfl
  | cons s rest ih =>
    intro steps ctx
    simp only [runBatch, batchCalls, ih]

theorem batchCalls_mono {V : Type} (batch : List (WStep V)) :
    ∀ (ctx : WfCtx V) (i : String) (c : WfCtx V) (k : String),
      (i, c) ∈ batchCalls ctx batch → dictHasKey ctx k = true → dictHasKey c k = true := by
  induction batch with
  | nil => intro ctx i c k hm; simp [batchCalls] at hm
  | cons s rest ih =>
    intro ctx i c k hm hk
    rcases List.mem_cons.mp hm with hh | hh
    · cases hh; exact hk
    · exact ih _ _ _ _ hh (by rw [dictHasKey_dictSet, hk]; simp)

theorem mem_calls_mem_ids {V : Type} (batch : List (WStep V)) (ctx : WfCtx V)
    (i : String) (c : WfCtx V) (hm : (i, c) ∈ batchCalls ctx batch) :
    i ∈ batch.map WStep.id := by
  rw [← batchCalls_fst batch ctx]
  exact List.mem_map.mpr ⟨(i, c), hm, rfl⟩

theorem batchCalls_not_self {V : Type} (batch : List (WStep V)) :
    ∀ (ctx : WfCtx V) (i : String) (c : WfCtx V),
      (batch.map WStep.id).Nodup →
      (i, c) ∈ batchCalls ctx batch →
      dictHasKey ctx i = false → dictHasKey c i = false := by
  induction batch with
  | nil => intro ctx i c _ hm; simp [batchCalls] at hm
  | cons s rest ih =>
    intro ctx i c hnd hm hi
    rcases List.mem_cons.mp hm with hh | hh
    · cases hh; exact hi
    · have hidr : i ∈ rest.map WStep.id := mem_calls_mem_ids rest _ i c hh
      have hne : s.id ≠ i := by
        intro hs; exact (List.nodup_cons.mp hnd).1 (hs ▸ hidr)
      refine ih _ _ _ (List.nodup_cons.mp hnd).2 hh ?_
      rw [dictHasKey_dictSet, hi]
      simp [hne]

theorem batchCalls_not_later {V : Type} :
    ∀ (pre : List (WStep V)) (s : WStep V) (mid : List (WStep V)) (t : WStep V)
      (post : List (WStep V)) (ctx : WfCtx V) (c : WfCtx V),
      (((pre ++ s :: mid ++ t :: post).map WStep.id)).Nodup →
      (s.id, c) ∈ batchCalls ctx (pre ++ s :: mid ++ t :: post) →
      dictHasKey ctx t.id = false → dictHasKey c t.id = false := by
  intro pre
  induction pre with
  | nil =>
    intro s mid t post ctx c hnd hm ht
    have hnd1 : (s.id :: (mid ++ t :: post).map WStep.id).Nodup := by
      simpa only [List.nil_append, List.map_cons] using hnd
    rcases List.mem_cons.mp hm with hh | hh
    · cases hh; exact ht
    · exact absurd (mem_calls_mem_ids _ _ _ _ hh) (List.nodup_cons.mp hnd1).1
  | cons p pre ih =>
    intro s mid t post ctx c hnd hm ht
    have hnd1 : (p.id :: (pre ++ s :: mid ++ t :: post).map WStep.id).Nodup := by
      simpa only [List.cons_append, List.map_cons] using hnd
    have hpid : p.id ∉ (pre ++ s :: mid ++ t :: post).map WStep.id :=
      (List.nodup_cons.mp hnd1).1
    rcases List.mem_cons.mp hm with hh | hh
    · have hsp : s.id = p.id := congrArg Prod.fst hh
      exact absurd (by
        rw [← hsp]
        simp : p.id ∈ (pre ++ s :: mid ++ t :: post).map WStep.id) hpid
    · have hpt : p.id ≠ t.id := by
        intro hpt
        exact hpid (by rw [hpt]; simp)
      refine ih s mid t post _ c (List.nodup_cons.mp hnd1).2 hh ?_
      rw [dictHasKey_dictSet, ht]
      simp [hpt]

theorem batchCalls_sees_earlier {V : Type} :
    ∀ (pre : List (WStep V)) (s : WStep V) (mid : List (WStep V)) (t : WStep V)
      (post : List (WStep V)) (ctx : WfCtx V) (c : WfCtx V),
      (((pre ++ s :: mid ++ t :: post).map WStep.id)).Nodup →
      (t.id, c) ∈ batchCalls ctx (pre ++ s :: mid ++ t :: post) →
      dictHasKey c s.id = true := by
  intro pre
  induction pre with
  | nil =>
    intro s mid t post ctx c hnd hm
    have hnd1 : (s.id :: (mid ++ t :: post).map WStep.id).Nodup := by
      simpa only [List.nil_append, List.map_cons] using hnd
    rcases List.mem_cons.mp hm with hh | hh
    · have hts : t.id = s.id := congrArg Prod.fst hh
      have hsid : s.id ∉ (mid ++ t :: post).map WStep.id := (List.nodup_cons.mp hnd1).1
      exact absurd (by rw [← hts]; simp : s.id ∈ (mid ++ t :: post).map WStep.id) hsid
    · exact batchCalls_mono _ _ _ _ _ hh (by rw [dictHasKey_dictSet]; simp)
  | cons p pre ih =>
    intro s mid t post ctx c hnd hm
    have hnd1 : (p.id :: (pre ++ s :: mid ++ t :: post).map WStep.id).Nodup := by
      simpa only [List.cons_append, List.map_cons] using hnd
    rcases List.mem_cons.mp hm with hh | hh
    · have htp : t.id = p.id := congrArg Prod.fst hh
      have hpid : p.id ∉ (pre ++ s :: mid ++ t :: post).map WStep.id :=
        (List.nodup_cons.mp hnd1).1
      exact absurd (by rw [← htp]; simp : p.id ∈ (pre ++ s :: mid ++ t :: post).map WStep.id)
        hpid
    · exact ih s mid t post _ c (List.nodup_cons.mp hnd1).2 hh

/-- C1 (counterexample): in the two-step workflow `c1steps`, A and B form
one ready batch, yet B's function receives a context already containing
A's result (and returns 1, proving it observed it) — refuting the claim
that no two steps of the same ready batch observe each other's results. -/
theorem batch_isolation_counterexample :
    ((readySteps c1steps).map WStep.id = ["A", "B"]) ∧
    ((wfExecute c1steps []).batches = [["A", "B"]]) ∧
    ((wfExecute c1steps []).calls = [("A", []), ("B", [("A", some 1)])]) ∧
    (dictHasKey [("A", (some 1 : Option Nat))] "A" = true) ∧
    ((lookupStep (wfExecute c1steps []).steps "B").map WStep.result =
        some (some ⟨true, some 1, none⟩)) := by
  exact ⟨rfl, rfl, rfl, rfl, rfl⟩

/-- C1 (amended): during `Workflow.execute`, each step's result is written
to the shared context only after its function returns — a step of a ready
batch never receives a context containing its own result, nor the result
of a step executed later in the same batch; however batch execution is
sequential, and a step does receive the results of the steps executed
before it in the same ready batch. -/
theorem batch_context_visibility {V : Type} (steps : List (WStep V)) (ctx : WfCtx V)
    (batch : List (WStep V)) (hb : batch = readySteps steps)
    (hnd : (batch.map WStep.id).Nodup) :
    ((runBatch steps ctx batch).snd.snd = batchCalls ctx batch) ∧
    (∀ (i : String) (c : WfCtx V), (i, c) ∈ (runBatch steps ctx batch).snd.snd →
      dictHasKey ctx i = false → dictHasKey c i = false) ∧
    (∀ (pre : List (WStep V)) (s : WStep V) (mid : List (WStep V)) (t : WStep V)
        (post : List (WStep V)), batch = pre ++ s :: mid ++ t :: post →
      ∀ c : WfCtx V, (s.id, c) ∈ (runBatch steps ctx batch).snd.snd →
        dictHasKey ctx t.id = false → dictHasKey c t.id = false) ∧
    (∀ (pre : List (WStep V)) (s : WStep V) (mid : List (WStep V)) (t : WStep V)
        (post : List (WStep V)), batch = pre ++ s :: mid ++ t :: post →
      ∀ c : WfCtx V, (t.id, c) ∈ (runBatch steps ctx batch).snd.snd →
        dictHasKey c s.id = true) := by
  rw [runBatch_calls]
  refine ⟨rfl, ?_, ?_, ?_⟩
  · intro i c hm hi
    exact batchCalls_not_self batch ctx i c hnd hm hi
  · intro pre s mid t post hsplit c hm ht
    subst hsplit
    exact batchCalls_not_later pre s mid t post ctx c hnd hm ht
  · intro pre s mid t post hsplit c hm
    subst hsplit
    exact batchCalls_sees_earlier pre s mid t post ctx c hnd hm

/-- Witness for the amended C1 on the concrete batch of `c1steps`. -/
theorem batch_context_visibility_witness :
    (runBatch c1steps [] (readySteps c1steps)).snd.snd =
      batchCalls ([] : WfCtx Nat) (readySteps c1steps) :=
  (batch_context_visibility c1steps [] (readySteps c1steps) rfl (by decide)).1

/-- Witness for C4: even an explicitly annotated `context_variables`
parameter is absent from `required`. -/
theorem context_variables_never_in_schema_witness :
    "context_variables" ∉ (function_to_json "f"
      ⟨[⟨"context_variables", PyAnn.annDict, false⟩, ⟨"x", PyAnn.annInt, false⟩],
        ""⟩).parameters.required :=
  (context_variables_never_in_schema "f"
    ⟨[⟨"context_variables", PyAnn.annDict, false⟩, ⟨"x", PyAnn.annInt, false⟩], ""⟩).2

/-- Witness for C5 at the spec's example signature. -/
theorem required_and_properties_inference_witness :
    (function_to_json "greet" c5sig).parameters.required = ["name"] :=
  (required_and_properties_inference "greet" c5sig).2.2.1

/-- Witness for C7 at a concrete instantiation. -/
theorem workflow_failure_propagation_witness :
    (wfExecute (c7steps Nat 1 "boom" (fun _ => Except.ok 0)) []).status = WfStatus.failed :=
  (workflow_failure_propagation Nat 1 "boom" (fun _ => Except.ok 0)).2.2.2.2.1

/-! Lemmas about the JSON dict operations. -/

theorem jGet_isSome_eq_hasKey : ∀ (o : JObj) (k : String),
    (jGet o k).isSome = jHasKey o k
  | JObj.onil, k => rfl
  | JObj.ocons k0 v tl, k => by
    have ih := jGet_isSome_eq_hasKey tl k
    simp only [jGet, jHasKey]
    cases hg : jGet tl k with
    | none =>
      rw [hg] at ih
      simp only [Option.isSome_none] at ih
      cases hk : k0 == k
      · simp [hk, ← ih]
      · simp [hk]
    | some w =>
      rw [hg] at ih
      simp only [Option.isSome_some] at ih
      simp [← ih]

theorem jGet_none_of_not_hasKey (o : JObj) (k : String) (h : jHasKey o k = false) :
    jGet o k = none := by
  have hh := jGet_isSome_eq_hasKey o k
  rw [h] at hh
  cases hg : jGet o k
  · rfl
  · rw [hg] at hh; simp at hh

theorem jGet_some_of_hasKey (o : JObj) (k : String) (h : jHasKey o k = true) :
    ∃ v, jGet o k = some v := by
  have hh := jGet_isSome_eq_hasKey o k
  rw [h] at hh
  cases hg : jGet o k
  · rw [hg] at hh; simp at hh
  · exact ⟨_, rfl⟩

theorem jHasKey_mem_keys : ∀ (o : JObj) (k : String),
    jHasKey o k = true ↔ k ∈ jKeys o
  | JObj.onil, k => by simp [jHasKey, jKeys]
  | JObj.ocons k0 v tl, k => by
    have ih := jHasKey_mem_keys tl k
    simp only [jHasKey, jKeys, Bool.or_eq_true, beq_iff_eq, List.mem_cons, ih]
    constructor
    · rintro (rfl | hh)
      · exact Or.inl rfl
      · exact Or.inr hh
    · rintro (rfl | hh)
      · exact Or.inl rfl
      · exact Or.inr hh

theorem jGet_not_mem_keys (o : JObj) (k : String) (h : k ∉ jKeys o) : jGet o k = none :=
  jGet_none_of_not_hasKey o k (by
    cases hh : jHasKey o k
    · rfl
    · exact absurd ((jHasKey_mem_keys o k).mp hh) h)

theorem jGet_jSet_ne : ∀ (o : JObj) (k : String) (v : JVal) (k' : String), k' ≠ k →
    jGet (jSet o k v) k' = jGet o k'
  | JObj.onil, k, v, k', h => by
    have hk : (k == k') = false := beq_eq_false_iff_ne.mpr (fun hh => h hh.symm)
    simp [jSet, jGet, hk]
  | JObj.ocons k0 v0 tl, k, v, k', h => by
    have ih := jGet_jSet_ne tl k v k' h
    simp only [jSet]
    by_cases h0 : k0 == k
    · rw [if_pos h0]
      have hk0 : (k0 == k') = false := by
        have he : k0 = k := by simpa using h0
        rw [he]
        exact beq_eq_false_iff_ne.mpr (fun hh => h hh.symm)
      simp only [jGet]
      cases hg : jGet tl k' <;> simp [hk0]
    · rw [if_neg h0]
      simp only [jGet, ih]

theorem jGet_jSet_self : ∀ (o : JObj) (k : String) (v : JVal), (jKeys o).Nodup →
    jGet (jSet o k v) k = some v
  | JObj.onil, k, v, _ => by simp [jSet, jGet]
  | JObj.ocons k0 v0 tl, k, v, hnd => by
    have ih := fun h => jGet_jSet_self tl k v h
    have hnd1 : (k0 :: jKeys tl).Nodup := by simpa [jKeys] using hnd
    simp only [jSet]
    by_cases h0 : k0 == k
    · rw [if_pos h0]
      have hk0 : k0 = k := by simpa using h0
      have hnotin : k ∉ jKeys tl := by
        have := (List.nodup_cons.mp hnd1).1
        rw [hk0] at this
        exact this
      simp only [jGet]
      rw [jGet_not_mem_keys tl k hnotin]
      simp [h0]
    · rw [if_neg h0]
      simp only [jGet]
      rw [ih (List.nodup_cons.mp hnd1).2]

theorem jKeys_jSet : ∀ (o : JObj) (k : String) (v : JVal),
    jKeys (jSet o k v) = if jHasKey o k then jKeys o else jKeys o ++ [k]
  | JObj.onil, k, v => by simp [jSet, jKeys, jHasKey]
  | JObj.ocons k0 v0 tl, k, v => by
    have ih := jKeys_jSet tl k v
    simp only [jSet, jHasKey]
    by_cases h0 : k0 == k
    · rw [if_pos h0]
      simp [jKeys, h0]
    · rw [if_neg h0]
      simp only [jKeys, ih, h0, Bool.false_or]
      cases hh : jHasKey tl k <;> simp

theorem jKeys_jSet_nodup (o : JObj) (k : String) (v : JVal) (hnd : (jKeys o).Nodup) :
    (jKeys (jSet o k v)).Nodup := by
  rw [jKeys_jSet]
  cases hh : jHasKey o k
  · have hnm : k ∉ jKeys o := by
      intro hk
      rw [(jHasKey_mem_keys o k).mpr hk] at hh
      cases hh
    refine hnd.append (List.nodup_singleton k) ?_
    intro a ha hk
    simp only [List.mem_singleton] at hk
    subst hk
    exact hnm ha
  · simpa using hnd

theorem jHasKey_jSet_self (o : JObj) (k : String) (v : JVal) :
    jHasKey (jSet o k v) k = true := by
  rw [jHasKey_mem_keys, jKeys_jSet]
  cases hh : jHasKey o k
  · simp
  · simp [(jHasKey_mem_keys o k).mp hh]

theorem jEntries_adaptProps : ∀ props : JObj,
    jEntries (adaptProps props) =
      (jEntries props).map (fun kv => (kv.fst, adaptPropVal kv.snd))
  | JObj.onil => rfl
  | JObj.ocons k v tl => by simp [adaptProps, jEntries, jEntries_adaptProps tl]

theorem adaptProps_ne_onil (props : JObj) (h : props ≠ JObj.onil) :
    adaptProps props ≠ JObj.onil := by
  cases props with
  | onil => exact absurd rfl h
  | ocons k v tl => simp [adaptProps]

theorem jTruthy_jobj_of_ne_onil (o : JObj) (h : o ≠ JObj.onil) :
    jTruthy (JVal.jobj o) = true := by
  cases o with
  | onil => exact absurd rfl h
  | ocons k v tl => rfl

theorem ne_onil_of_jTruthy (o : JObj) (h : jTruthy (JVal.jobj o) = true) :
    o ≠ JObj.onil := by
  cases o with
  | onil => cases h
  | ocons k v tl => simp

theorem mapM_option_mem {A B : Type} (f : A → Option B) :
    ∀ (l : List A) (l2 : List B), l.mapM f = some l2 → ∀ b ∈ l2, ∃ a ∈ l, f a = some b := by
  intro l
  induction l with
  | nil =>
    intro l2 h b hb
    simp only [List.mapM_nil, pure, Option.some.injEq] at h
    subst h
    simp at hb
  | cons a as ih =>
    intro l2 h b hb
    rw [List.mapM_cons] at h
    cases hfa : f a with
    | none => rw [hfa] at h; simp at h
    | some x =>
      rw [hfa] at h
      cases hm : as.mapM f with
      | none => rw [hm] at h; simp at h
      | some xs =>
        rw [hm] at h
        simp only [Option.bind_eq_bind, Option.some_bind, pure, Option.some.injEq] at h
        subst h
        rcases List.mem_cons.mp hb with rfl | hb2
        · exact ⟨a, List.mem_cons_self a as, hfa⟩
        · obtain ⟨a2, ha2, hfa2⟩ := ih xs hm b hb2
          exact ⟨a2, List.mem_cons_of_mem _ ha2, hfa2⟩

theorem typeIsObject_jSet_ne (o : JObj) (k : String) (v : JVal) (h : ("type" : String) ≠ k) :
    typeIsObject (jSet o k v) = typeIsObject o := by
  simp only [typeIsObject, jGet_jSet_ne o k v "type" h]

theorem needsDummy_decompose (po : JObj) (hdum : needsDummy po = false)
    (hty : typeIsObject po = true) :
    jHasKey po "properties" = true ∧
      jTruthy ((jGet po "properties").getD JVal.jnull) = true := by
  have h1 : ((!(jHasKey po "properties")) ||
      (!(jTruthy ((jGet po "properties").getD JVal.jnull)))) = false := by
    have h2 : needsDummy po = ((!(jHasKey po "properties")) ||
        (!(jTruthy ((jGet po "properties").getD JVal.jnull)))) := by
      simp [needsDummy, hty]
    rw [← h2, hdum]
  constructor
  · cases hkk : jHasKey po "properties"
    · rw [hkk] at h1; simp at h1
    · rfl
  · cases htt : jTruthy ((jGet po "properties").getD JVal.jnull)
    · rw [htt] at h1; simp at h1
    · rfl

theorem adaptPropVal_good (v0 : JVal) (pvo : JObj)
    (hndv : ∀ po1 : JObj, v0 = JVal.jobj po1 → (jKeys po1).Nodup)
    (heq : adaptPropVal v0 = JVal.jobj pvo)
    (hty : typeIsObject pvo = true) :
    ∃ pr, jGet pvo "properties" = some pr ∧ jTruthy pr = true := by
  cases v0 with
  | jobj po1 =>
    have hnd1 := hndv po1 rfl
    simp only [adaptPropVal] at heq
    by_cases hdum : needsDummy po1 = true
    · rw [if_pos hdum] at heq
      injection heq with h2
      subst h2
      exact ⟨JVal.jobj dummySingleton, jGet_jSet_self po1 "properties" _ hnd1, rfl⟩
    · rw [if_neg hdum] at heq
      injection heq with h2
      rw [← h2] at hty ⊢
      have hdumf : needsDummy po1 = false := by
        cases hdd : needsDummy po1
        · rfl
        · exact absurd hdd hdum
      obtain ⟨hk, ht⟩ := needsDummy_decompose po1 hdumf hty
      obtain ⟨pr, hpr⟩ := jGet_some_of_hasKey po1 "properties" hk
      rw [hpr] at ht
      exact ⟨pr, hpr, by simpa using ht⟩
  | jnull => simp [adaptPropVal] at heq
  | jbool b => simp [adaptPropVal] at heq
  | jnum i => simp [adaptPropVal] at heq
  | jstr t => simp [adaptPropVal] at heq
  | jarr a => simp [adaptPropVal] at heq

theorem topFix_keys_nodup (po : JObj) (hnd : (jKeys po).Nodup) :
    (jKeys (topFix po)).Nodup := by
  unfold topFix
  by_cases hdum : needsDummy po = true
  · rw [if_pos hdum]
    exact jKeys_jSet_nodup po "properties" _ hnd
  · rw [if_neg hdum]
    exact hnd

theorem typeIsObject_topFix (po : JObj) : typeIsObject (topFix po) = typeIsObject po := by
  unfold topFix
  by_cases hdum : needsDummy po = true
  · rw [if_pos hdum]
    exact typeIsObject_jSet_ne po "properties" _ (by decide)
  · rw [if_neg hdum]

theorem adaptParams_spec (po pp : JObj) (hnd : (jKeys po).Nodup)
    (hen : ∀ props : JObj, jGet po "properties" = some (JVal.jobj props) →
      ∀ kv ∈ jEntries props, ∀ pvo : JObj, kv.snd = JVal.jobj pvo → (jKeys pvo).Nodup)
    (h : adaptParams po = some pp) :
    (typeIsObject pp = true →
      ∃ pr, jGet pp "properties" = some pr ∧ jTruthy pr = true) ∧
    (∀ props : JObj, jGet pp "properties" = some (JVal.jobj props) →
      ∀ kv ∈ jEntries props, ∀ pvo : JObj, kv.snd = JVal.jobj pvo →
        typeIsObject pvo = true →
        ∃ pr, jGet pvo "properties" = some pr ∧ jTruthy pr = true) := by
  have hndq : (jKeys (topFix po)).Nodup := topFix_keys_nodup po hnd
  have henq : ∀ props : JObj, jGet (topFix po) "properties" = some (JVal.jobj props) →
      ∀ kv ∈ jEntries props, ∀ pvo : JObj, kv.snd = JVal.jobj pvo → (jKeys pvo).Nodup := by
    unfold topFix
    by_cases hdum : needsDummy po = true
    · rw [if_pos hdum]
      intro props hp kv hkv pvo hpv
      rw [jGet_jSet_self po "properties" _ hnd] at hp
      injection hp with hp1
      injection hp1 with hp2
      subst hp2
      simp only [dummySingleton, jEntries, List.mem_cons, List.not_mem_nil, or_false] at hkv
      subst hkv
      simp only [dummyProp] at hpv
      injection hpv with hpv1
      subst hpv1
      decide
    · rw [if_neg hdum]
      exact hen
  simp only [adaptParams] at h
  by_cases hk : jHasKey (topFix po) "properties" = true
  · rw [if_pos hk] at h
    cases hq : jGet (topFix po) "properties" with
    | none => rw [hq] at h; cases h
    | some pv =>
      rw [hq] at h
      cases pv with
      | jobj props0 =>
        injection h with h2
        subst h2
        constructor
        · intro hty
          have hty0 : typeIsObject po = true := by
            rw [typeIsObject_jSet_ne (topFix po) "properties" _ (by decide)] at hty
            rw [typeIsObject_topFix] at hty
            exact hty
          have hprops0 : props0 ≠ JObj.onil := by
            revert hq
            unfold topFix
            by_cases hdum : needsDummy po = true
            · rw [if_pos hdum]
              rw [jGet_jSet_self po "properties" _ hnd]
              intro hq
              injection hq with hq1
              injection hq1 with hq2
              subst hq2
              simp [dummySingleton]
            · rw [if_neg hdum]
              intro hq
              have hdumf : needsDummy po = false := by
                cases hdd : needsDummy po
                · rfl
                · exact absurd hdd hdum
              obtain ⟨-, ht⟩ := needsDummy_decompose po hdumf hty0
              rw [hq] at ht
              exact ne_onil_of_jTruthy props0 (by simpa using ht)
          refine ⟨JVal.jobj (adaptProps props0),
            jGet_jSet_self (topFix po) "properties" _ hndq, ?_⟩
          exact jTruthy_jobj_of_ne_onil _ (adaptProps_ne_onil props0 hprops0)
        · intro props hpr kv hkv pvo hpv hty2
          rw [jGet_jSet_self (topFix po) "properties" _ hndq] at hpr
          injection hpr with hpr1
          injection hpr1 with hpr2
          subst hpr2
          rw [jEntries_adaptProps] at hkv
          obtain ⟨kv0, hkv0, hmap⟩ := List.mem_map.mp hkv
          have hsnd : adaptPropVal kv0.snd = JVal.jobj pvo := by
            have := congrArg Prod.snd hmap
            simp at this
            rw [this]
            exact hpv
          exact adaptPropVal_good kv0.snd pvo
            (fun po1 hpo1 => henq props0 hq kv0 hkv0 po1 hpo1) hsnd hty2
      | jnull => simp at h
      | jbool b => simp at h
      | jnum i => simp at h
      | jstr t => simp at h
      | jarr a => simp at h
  · rw [if_neg hk] at h
    injection h with h2
    subst h2
    constructor
    · intro hty
      exfalso
      have hdum : needsDummy po = false := by
        cases hdd : needsDummy po
        · rfl
        · exfalso
          apply hk
          unfold topFix
          rw [if_pos hdd]
          exact jHasKey_jSet_self po "properties" _
      have hqpo : topFix po = po := by unfold topFix; rw [if_neg (by simp [hdum])]
      rw [hqpo] at hk hty
      have : needsDummy po = true := by
        simp only [needsDummy, hty, Bool.true_and]
        have : jHasKey po "properties" = false := by
          cases hkk : jHasKey po "properties"
          · rfl
          · exact absurd hkk hk
        rw [this]
        rfl
      rw [this] at hdum
      cases hdum
    · intro props hpr
      rw [jGet_none_of_not_hasKey (topFix po) "properties" (by
        cases hkk : jHasKey (topFix po) "properties"
        · rfl
        · exact absurd hkk hk)] at hpr
      cases hpr

/-- C9 (counterexample): adapting `c9tool` leaves it unchanged, although
its parameter `a` contains, nested one level deeper, the object-typed
parameter `b` with empty `properties` — so placeholder injection is not
recursive at arbitrary depth. -/
theorem gemini_adaptation_counterexample :
    adapt_tools_for_gemini [c9tool] = some [c9tool] ∧
    jGet c9innerBObj "type" = some (JVal.jstr "object") ∧
    jGet c9innerBObj "properties" = some (JVal.jobj JObj.onil) ∧
    jTruthy (JVal.jobj JObj.onil) = false :=
  ⟨rfl, rfl, rfl, rfl⟩

/-- C9 (amended): for every tool list the adaptation accepts, in each
adapted tool's parameters dict, an object-typed parameters object has a
present, non-empty `properties`, and every DIRECT object-typed property
has a present, non-empty `properties`; the guarantee stops at that depth
(deeper nestings are untouched, as the counterexample shows). -/
theorem gemini_adaptation_depth_one
    (tools adapted : List JVal)
    (hwf : ∀ tool ∈ tools, toolWellKeyed tool = true)
    (h : adapt_tools_for_gemini tools = some adapted)
    (t : JVal) (ht : t ∈ adapted)
    (tob fo po : JObj)
    (htv : t = JVal.jobj tob)
    (hfo : jGet tob "function" = some (JVal.jobj fo))
    (hpo : jGet fo "parameters" = some (JVal.jobj po)) :
    (typeIsObject po = true →
      ∃ pr, jGet po "properties" = some pr ∧ jTruthy pr = true) ∧
    (∀ props : JObj, jGet po "properties" = some (JVal.jobj props) →
      ∀ kv ∈ jEntries props, ∀ pvo : JObj, kv.snd = JVal.jobj pvo →
        typeIsObject pvo = true →
        ∃ pr, jGet pvo "properties" = some pr ∧ jTruthy pr = true) := by
  obtain ⟨tool, htool, hat⟩ := mapM_option_mem adaptTool tools adapted h t ht
  have hwft := hwf tool htool
  cases tool with
  | jobj tob0 =>
    simp only [adaptTool] at hat
    cases hfn : jGet tob0 "function" with
    | none => rw [hfn] at hat; cases hat
    | some fv =>
      rw [hfn] at hat
      cases fv with
      | jobj fo0 =>
        dsimp only at hat
        have hwft2 := hwft
        simp only [toolWellKeyed, hfn] at hwft2
        have hndtob : (jKeys tob0).Nodup := by
          have := (Bool.and_eq_true _ _).mp hwft2
          exact of_decide_eq_true this.1
        have hndfo : (jKeys fo0).Nodup := by
          have h1 := ((Bool.and_eq_true _ _).mp hwft2).2
          exact of_decide_eq_true ((Bool.and_eq_true _ _).mp h1).1
        by_cases hpk : jHasKey fo0 "parameters" = true
        · rw [if_pos hpk] at hat
          cases hpp : jGet fo0 "parameters" with
          | none => rw [hpp] at hat; cases hat
          | some pv =>
            rw [hpp] at hat
            cases pv with
            | jobj po0 =>
              dsimp only at hat
              have hndpo : (jKeys po0).Nodup := by
                have h1 := ((Bool.and_eq_true _ _).mp hwft2).2
                have h2 := ((Bool.and_eq_true _ _).mp h1).2
                rw [hpp] at h2
                exact of_decide_eq_true ((Bool.and_eq_true _ _).mp h2).1
              have hen : ∀ props : JObj, jGet po0 "properties" = some (JVal.jobj props) →
                  ∀ kv ∈ jEntries props, ∀ pvo : JObj, kv.snd = JVal.jobj pvo →
                    (jKeys pvo).Nodup := by
                intro props hprops kv hkv pvo hpv
                have h1 := ((Bool.and_eq_true _ _).mp hwft2).2
                have h2 := ((Bool.and_eq_true _ _).mp h1).2
                rw [hpp] at h2
                have h3 := ((Bool.and_eq_true _ _).mp h2).2
                rw [hprops] at h3
                have h4 := (List.all_eq_true.mp h3) kv hkv
                rw [hpv] at h4
                exact of_decide_eq_true h4
              cases hap : adaptParams po0 with
              | none => rw [hap] at hat; cases hat
              | some pp =>
                rw [hap] at hat
                simp only [Option.map_some'] at hat
                injection hat with hat1
                rw [htv] at hat1
                injection hat1 with hat2
                -- hat2 : jSet tob0 "function" ... = tob
                have hfo2 : jGet tob "function" =
                    some (JVal.jobj (jSet fo0 "parameters" (JVal.jobj pp))) := by
                  rw [← hat2]
                  exact jGet_jSet_self tob0 "function" _ hndtob
                rw [hfo2] at hfo
                injection hfo with hfo3
                injection hfo3 with hfo4
                have hpo2 : jGet fo "parameters" = some (JVal.jobj pp) := by
                  rw [← hfo4]
                  exact jGet_jSet_self fo0 "parameters" _ hndfo
                rw [hpo2] at hpo
                injection hpo with hpo3
                injection hpo3 with hpo4
                rw [← hpo4]
                exact adaptParams_spec po0 pp hndpo hen hap
            | jnull => simp at hat
            | jbool b => simp at hat
            | jnum i => simp at hat
            | jstr st => simp at hat
            | jarr a => simp at hat
        · rw [if_neg hpk] at hat
          injection hat with hat1
          rw [htv] at hat1
          injection hat1 with hat2
          -- t is the unchanged tool; parameters absent contradicts hpo
          have hfo2 : jGet tob "function" = some (JVal.jobj fo0) := by
            rw [← hat2]; exact hfn
          rw [hfo2] at hfo
          injection hfo with hfo3
          injection hfo3 with hfo4
          rw [← hfo4] at hpo
          rw [jGet_none_of_not_hasKey fo0 "parameters" (by
            cases hkk : jHasKey fo0 "parameters"
            · rfl
            · exact absurd hkk hpk)] at hpo
          cases hpo
      | jnull => simp at hat
      | jbool b => simp at hat
      | jnum i => simp at hat
      | jstr st => simp at hat
      | jarr a => simp at hat
  | jnull => cases hat
  | jbool b => cases hat
  | jnum i => cases hat
  | jstr st => cases hat
  | jarr a => cases hat

/-- Witness for the amended C9: the concrete tool `w9tool` (object-typed
parameters, empty properties) adapts to `w9adapted`, whose parameters
object has the non-empty placeholder `properties`. -/
theorem gemini_adaptation_depth_one_witness :
    ∃ pr, jGet w9pp "properties" = some pr ∧ jTruthy pr = true :=
  (gemini_adaptation_depth_one [w9tool] [w9adapted] (by decide) rfl
    w9adapted (List.mem_cons_self _ _)
    (JObj.ocons "function" (JVal.jobj w9fo) JObj.onil) w9fo w9pp
    rfl rfl rfl).1 rfl


theorem extractLoop_eq_filterMap : ∀ bs : List (List Char),
    extractLoop bs = bs.filterMap blockToCall
  | [] => rfl
  | b :: bs => by
    simp only [extractLoop, List.filterMap_cons]
    cases hb : blockToCall b
    · exact extractLoop_eq_filterMap bs
    · simp [extractLoop_eq_filterMap bs]

/-- C2: extraction scans all fenced tool blocks and keeps exactly those
that parse as JSON dicts carrying both `name` and `arguments`, silently
discarding the rest (the embedding is total, so nothing is raised); in
particular `c2text`, holding one well-formed and one malformed block,
yields exactly one extracted call. -/
theorem extraction_leniency :
    (∀ content : String,
      extract_tool_calls_from_content content =
        (scanToolBlocks content.toList).filterMap blockToCall) ∧
    extract_tool_calls_from_content c2text =
      [⟨JVal.jstr "get_weather", "\x7b\"city\": \"Paris\"\x7d"⟩] := by
  constructor
  · intro content
    exact extractLoop_eq_filterMap _
  · rfl

/-- C3 (counterexample): the native assistant message `c3msg` carries one
function tool call with a name (`a"b`) and JSON-parseable arguments, yet
converting it to textual form and back yields a message with NO tool
calls: the quote in the name breaks the generated JSON block, which
extraction silently drops. -/
theorem roundtrip_counterexample :
    c3msg.toolCalls.length = 1 ∧
    c3msg.toolCalls.map (fun tc => (jsonLoads tc.argumentsStr).isSome) = [true] ∧
    (convert_non_fncall_messages_to_fncall_messages
        (convert_fn_messages_to_non_fn_messages [c3msg])).map
      (fun l => l.map (fun m => m.toolCalls.length)) = some [0] :=
  ⟨rfl, rfl, rfl⟩

/-! Character-level facts used by the parser round-trip proofs. -/

theorem char_toNat_ofNat (n : Nat) (h : n.isValidChar) : (Char.ofNat n).toNat = n := by
  unfold Char.ofNat
  rw [dif_pos h]
  rfl

theorem char_ne_of_toNat_ne {a b : Char} (h : a.toNat ≠ b.toNat) : a ≠ b :=
  fun he => h (he ▸ rfl)

theorem digitChar_toNat (d : Nat) (h : d < 10) : (digitChar d).toNat = 48 + d :=
  char_toNat_ofNat (48 + d) (Or.inl (by omega))

theorem isDigitCh_iff (c : Char) : isDigitCh c = true ↔ 48 ≤ c.toNat ∧ c.toNat ≤ 57 := by
  simp [isDigitCh]

theorem isDigitCh_digitChar (d : Nat) (h : d < 10) : isDigitCh (digitChar d) = true := by
  rw [isDigitCh_iff, digitChar_toNat d h]
  omega

theorem isJsonWs_eq_false {c : Char} (h32 : c.toNat ≠ 32) (h9 : c.toNat ≠ 9)
    (h10 : c.toNat ≠ 10) (h13 : c.toNat ≠ 13) : isJsonWs c = false := by
  simp only [isJsonWs, Bool.or_eq_false_iff, decide_eq_false_iff_not]
  exact ⟨⟨⟨char_ne_of_toNat_ne h32, char_ne_of_toNat_ne h9⟩,
    char_ne_of_toNat_ne h10⟩, char_ne_of_toNat_ne h13⟩

theorem isPyWs_eq_false {c : Char} (h32 : c.toNat ≠ 32) (h9 : c.toNat ≠ 9)
    (h10 : c.toNat ≠ 10) (h13 : c.toNat ≠ 13) (h11 : c.toNat ≠ 11) (h12 : c.toNat ≠ 12) :
    isPyWs c = false := by
  simp only [isPyWs, Bool.or_eq_false_iff, decide_eq_false_iff_not]
  exact ⟨⟨⟨⟨⟨char_ne_of_toNat_ne h32, char_ne_of_toNat_ne h9⟩,
    char_ne_of_toNat_ne h10⟩, char_ne_of_toNat_ne h13⟩,
    char_ne_of_toNat_ne h11⟩, char_ne_of_toNat_ne h12⟩

theorem skipWs_cons_not (c : Char) (l : List Char) (h : isJsonWs c = false) :
    skipWs (c :: l) = c :: l := by
  simp [skipWs, h]

theorem skipWs_ws_append (w : List Char) (X : List Char)
    (hw : ∀ c ∈ w, isJsonWs c = true) : skipWs (w ++ X) = skipWs X := by
  induction w with
  | nil => rfl
  | cons c cs ih =>
    simp only [List.cons_append, skipWs, hw c (List.mem_cons_self _ _), if_pos]
    exact ih (fun d hd => hw d (List.mem_cons_of_mem _ hd))

theorem nlIndent_ws (ind : Option Nat) (cur : Nat) :
    ∀ c ∈ nlIndent ind cur, isJsonWs c = true := by
  cases ind with
  | none => intro c hc; simp [nlIndent] at hc
  | some k =>
    intro c hc
    simp only [nlIndent, List.mem_cons] at hc
    rcases hc with rfl | hc
    · rfl
    · rw [List.eq_of_mem_replicate hc]
      rfl

theorem skipWs_nlIndent (ind : Option Nat) (cur : Nat) (X : List Char) :
    skipWs (nlIndent ind cur ++ X) = skipWs X :=
  skipWs_ws_append _ _ (nlIndent_ws ind cur)

theorem toList_mk (l : List Char) : (String.mk l).toList = l := rfl

theorem hexVal_hexDigitChar (x : Nat) (h : x < 16) : hexVal (hexDigitChar x) = some x := by
  by_cases hx : x < 10
  · have ht : (hexDigitChar x).toNat = 48 + x := by
      simp only [hexDigitChar, if_pos hx]
      exact char_toNat_ofNat _ (Or.inl (by omega))
    simp only [hexVal, ht]
    rw [if_pos (by omega)]
    congr 1
    omega
  · have ht : (hexDigitChar x).toNat = 87 + x := by
      simp only [hexDigitChar, if_neg hx]
      exact char_toNat_ofNat _ (Or.inl (by omega))
    simp only [hexVal, ht]
    rw [if_neg (by omega), if_pos (by omega)]
    congr 1
    omega

theorem parseHex4_hex4 (v : Nat) (h : v < 65536) (rest : List Char) :
    parseHex4 (hex4 v ++ rest) = some (v, rest) := by
  simp only [hex4, List.cons_append, List.nil_append, parseHex4]
  rw [hexVal_hexDigitChar _ (by omega), hexVal_hexDigitChar _ (by omega),
    hexVal_hexDigitChar _ (by omega), hexVal_hexDigitChar _ (by omega)]
  simp only [Option.some.injEq, Prod.mk.injEq, and_true]
  omega

theorem char_valid_ranges (c : Char) :
    c.toNat < 55296 ∨ (57344 ≤ c.toNat ∧ c.toNat < 1114112) := c.valid

theorem parseStrBody_esc_step (c : Char) (s l r : List Char) (f : Nat)
    (hs : parseStrBody f s = some (l, r)) :
    parseStrBody (f + 1) (escapeChar c ++ s) = some (c :: l, r) := by
  by_cases h1 : c = '"'
  · subst h1
    rw [show escapeChar '"' = ['\\', '"'] from rfl]
    show parseStrBody (f + 1) ('\\' :: '"' :: s) = _
    rw [show parseStrBody (f + 1) ('\\' :: '"' :: s) =
        (parseStrBody f s).map (fun p => ('"' :: p.fst, p.snd)) from rfl, hs]
    rfl
  · by_cases h2 : c = '\\'
    · subst h2
      rw [show escapeChar '\\' = ['\\', '\\'] from rfl]
      show parseStrBody (f + 1) ('\\' :: '\\' :: s) = _
      rw [show parseStrBody (f + 1) ('\\' :: '\\' :: s) =
          (parseStrBody f s).map (fun p => ('\\' :: p.fst, p.snd)) from rfl, hs]
      rfl
    · by_cases h3 : c = '\x08'
      · subst h3
        rw [show escapeChar '\x08' = ['\\', 'b'] from rfl]
        show parseStrBody (f + 1) ('\\' :: 'b' :: s) = _
        rw [show parseStrBody (f + 1) ('\\' :: 'b' :: s) =
            (parseStrBody f s).map (fun p => ('\x08' :: p.fst, p.snd)) from rfl, hs]
        rfl
      · by_cases h4 : c = '\x0c'
        · subst h4
          rw [show escapeChar '\x0c' = ['\\', 'f'] from rfl]
          show parseStrBody (f + 1) ('\\' :: 'f' :: s) = _
          rw [show parseStrBody (f + 1) ('\\' :: 'f' :: s) =
              (parseStrBody f s).map (fun p => ('\x0c' :: p.fst, p.snd)) from rfl, hs]
          rfl
        · by_cases h5 : c = '\n'
          · subst h5
            rw [show escapeChar '\n' = ['\\', 'n'] from rfl]
            show parseStrBody (f + 1) ('\\' :: 'n' :: s) = _
            rw [show parseStrBody (f + 1) ('\\' :: 'n' :: s) =
                (parseStrBody f s).map (fun p => ('\n' :: p.fst, p.snd)) from rfl, hs]
            rfl
          · by_cases h6 : c = '\r'
            · subst h6
              rw [show escapeChar '\r' = ['\\', 'r'] from rfl]
              show parseStrBody (f + 1) ('\\' :: 'r' :: s) = _
              rw [show parseStrBody (f + 1) ('\\' :: 'r' :: s) =
                  (parseStrBody f s).map (fun p => ('\r' :: p.fst, p.snd)) from rfl, hs]
              rfl
            · by_cases h7 : c = '\t'
              · subst h7
                rw [show escapeChar '\t' = ['\\', 't'] from rfl]
                show parseStrBody (f + 1) ('\\' :: 't' :: s) = _
                rw [show parseStrBody (f + 1) ('\\' :: 't' :: s) =
                    (parseStrBody f s).map (fun p => ('\t' :: p.fst, p.snd)) from rfl, hs]
                rfl
              · by_cases h8 : 32 ≤ c.toNat ∧ c.toNat ≤ 126
                · have he : escapeChar c = [c] := by
                    simp only [escapeChar, if_neg h1, if_neg h2, if_neg h3, if_neg h4,
                      if_neg h5, if_neg h6, if_neg h7, if_pos h8]
                  rw [he]
                  simp only [List.cons_append, List.nil_append]
                  have hred : parseStrBody (f + 1) (c :: s) =
                      (parseStrBody f s).map (fun p => (c :: p.fst, p.snd)) := by
                    show parseStrBodyStep (parseStrBody f) (c :: s) = _
                    simp only [parseStrBodyStep]
                    rw [if_neg h1, if_neg h2, if_neg (by omega : ¬c.toNat < 32)]
                  rw [hred, hs]
                  rfl
                · by_cases h9 : c.toNat < 65536
                  · have he : escapeChar c = '\\' :: 'u' :: hex4 c.toNat := by
                      simp only [escapeChar, if_neg h1, if_neg h2, if_neg h3, if_neg h4,
                        if_neg h5, if_neg h6, if_neg h7, if_neg h8, if_pos h9]
                    rw [he]
                    simp only [List.cons_append]
                    have hred : parseStrBody (f + 1)
                        ('\\' :: 'u' :: (hex4 c.toNat ++ s)) =
                        parseUEscape (parseStrBody f) (hex4 c.toNat ++ s) := rfl
                    rw [hred]
                    simp only [parseUEscape]
                    rw [parseHex4_hex4 c.toNat h9]
                    dsimp only
                    have hval := char_valid_ranges c
                    rw [if_neg (by omega : ¬(55296 ≤ c.toNat ∧ c.toNat < 56320)),
                      if_neg (by omega : ¬(56320 ≤ c.toNat ∧ c.toNat < 57344)), hs]
                    simp [Char.ofNat_toNat]
                  · have hval := char_valid_ranges c
                    have he : escapeChar c =
                        ('\\' :: 'u' :: hex4 (55296 + (c.toNat - 65536) / 1024)) ++
                          ('\\' :: 'u' :: hex4 (56320 + (c.toNat - 65536) % 1024)) := by
                      simp only [escapeChar, if_neg h1, if_neg h2, if_neg h3, if_neg h4,
                        if_neg h5, if_neg h6, if_neg h7, if_neg h8, if_neg h9]
                    rw [he]
                    simp only [List.cons_append, List.append_assoc]
                    obtain ⟨a, ha⟩ : ∃ a, 55296 + (c.toNat - 65536) / 1024 = a := ⟨_, rfl⟩
                    obtain ⟨b, hb⟩ : ∃ b, 56320 + (c.toNat - 65536) % 1024 = b := ⟨_, rfl⟩
                    rw [ha, hb]
                    have hred : parseStrBody (f + 1)
                        ('\\' :: 'u' :: (hex4 a ++ ('\\' :: 'u' :: (hex4 b ++ s)))) =
                        parseUEscape (parseStrBody f)
                          (hex4 a ++ ('\\' :: 'u' :: (hex4 b ++ s))) := rfl
                    rw [hred]
                    simp only [parseUEscape]
                    rw [parseHex4_hex4 a (by omega)]
                    dsimp only
                    rw [if_pos (by omega : 55296 ≤ a ∧ a < 56320)]
                    simp only [parseLowSurrogate]
                    rw [parseHex4_hex4 b (by omega)]
                    dsimp only
                    rw [if_pos (by omega : 56320 ≤ b ∧ b < 57344)]
                    rw [hs]
                    have harith : 65536 + (a - 55296) * 1024 + (b - 56320) = c.toNat := by
                      omega
                    rw [harith]
                    simp [Char.ofNat_toNat]

theorem parseStrBody_escBody (body : List Char) : ∀ (rest : List Char) (fuel : Nat),
    body.length + 1 ≤ fuel →
    parseStrBody fuel ((body.map escapeChar).flatten ++ '"' :: rest) = some (body, rest) := by
  induction body with
  | nil =>
    intro rest fuel h
    match fuel, h with
    | f + 1, _ =>
      simp only [List.map_nil, List.flatten_nil, List.nil_append]
      rfl
  | cons c body ihb =>
    intro rest fuel h
    match fuel, h with
    | f + 1, h =>
      have hf : body.length + 1 ≤ f := by
        simp only [List.length_cons] at h
        omega
      have ih := ihb rest f hf
      simp only [List.map_cons, List.flatten_cons, List.append_assoc]
      exact parseStrBody_esc_step c _ body rest f ih

/-! Round trip for numbers: `parseNum` inverts `intChars`. -/

theorem takeDigits_nodigit (rest : List Char)
    (hr : ∀ c, rest.head? = some c → isDigitCh c = false) :
    takeDigits rest = ([], rest) := by
  cases rest with
  | nil => rfl
  | cons c cs =>
    have hc := hr c rfl
    simp only [takeDigits]
    rw [if_neg (by simp [hc])]

theorem takeDigits_mapDigits (ds : List Nat) : ∀ (rest : List Char),
    (∀ d ∈ ds, d < 10) →
    (∀ c, rest.head? = some c → isDigitCh c = false) →
    takeDigits (ds.map digitChar ++ rest) = (ds, rest) := by
  induction ds with
  | nil =>
    intro rest _ hr
    simpa using takeDigits_nodigit rest hr
  | cons d ds ih =>
    intro rest hds hr
    have hd : d < 10 := hds d (List.mem_cons_self _ _)
    have ih2 := ih rest (fun e he => hds e (List.mem_cons_of_mem _ he)) hr
    simp only [List.map_cons, List.cons_append, takeDigits, List.append_eq]
    rw [if_pos (isDigitCh_digitChar d hd), ih2, digitChar_toNat d hd]
    simp

theorem natOfDigits_append (xs : List Nat) (d : Nat) :
    natOfDigits (xs ++ [d]) = 10 * natOfDigits xs + d := by
  simp [natOfDigits, List.foldl_append]

theorem natOfDigits_reverse (l : List Nat) :
    natOfDigits l.reverse = Nat.ofDigits 10 l := by
  induction l with
  | nil => simp [natOfDigits, Nat.ofDigits]
  | cons d t ih =>
    simp only [List.reverse_cons, natOfDigits_append, ih, Nat.ofDigits_cons]
    omega

theorem natOfDigits_digits (n : Nat) :
    natOfDigits (Nat.digits 10 n).reverse = n := by
  rw [natOfDigits_reverse, Nat.ofDigits_digits]

theorem reverse_getLast_cons {α} (l : List α) (h : l ≠ []) :
    l.reverse = l.getLast h :: l.dropLast.reverse := by
  conv_lhs => rw [← List.dropLast_append_getLast h]
  rw [List.reverse_append]
  rfl

theorem parseNumCore_natChars (n : Nat) (rest : List Char)
    (hr : ∀ c, rest.head? = some c → isDigitCh c = false) :
    parseNumCore (natChars n ++ rest) = some (n, rest) := by
  by_cases h0 : n = 0
  · subst h0
    rfl
  · have hne : Nat.digits 10 n ≠ [] := Nat.digits_ne_nil_iff_ne_zero.mpr h0
    have hm0 : (Nat.digits 10 n).getLast hne ≠ 0 := Nat.getLast_digit_ne_zero 10 h0
    have hm10 : (Nat.digits 10 n).getLast hne < 10 :=
      Nat.digits_lt_base (by norm_num) (List.getLast_mem hne)
    have hlt : ∀ d ∈ (Nat.digits 10 n).reverse, d < 10 := fun d hd =>
      Nat.digits_lt_base (by norm_num) (List.mem_reverse.mp hd)
    have hrev := reverse_getLast_cons (Nat.digits 10 n) hne
    have htd := takeDigits_mapDigits ((Nat.digits 10 n).reverse) rest hlt hr
    have hnc : natChars n = ((Nat.digits 10 n).reverse).map digitChar := by
      simp only [natChars, if_neg h0]
    rw [hnc, hrev, List.map_cons, List.cons_append]
    rw [hrev, List.map_cons, List.cons_append] at htd
    simp only [parseNumCore]
    rw [if_neg (char_ne_of_toNat_ne (by
      rw [digitChar_toNat _ hm10, show ('0').toNat = 48 from rfl]
      omega)), if_pos (isDigitCh_digitChar _ hm10), htd]
    have hnod : natOfDigits ((Nat.digits 10 n).getLast hne :: (Nat.digits 10 n).dropLast.reverse) = n := by
      rw [← hrev, natOfDigits_digits]
    rw [hnod]

theorem natChars_head (n : Nat) :
    ∃ c cs, natChars n = c :: cs ∧ 48 ≤ c.toNat ∧ c.toNat ≤ 57 := by
  by_cases h0 : n = 0
  · subst h0
    exact ⟨'0', [], rfl, by decide, by decide⟩
  · have hne : Nat.digits 10 n ≠ [] := Nat.digits_ne_nil_iff_ne_zero.mpr h0
    have hm10 : (Nat.digits 10 n).getLast hne < 10 :=
      Nat.digits_lt_base (by norm_num) (List.getLast_mem hne)
    refine ⟨digitChar ((Nat.digits 10 n).getLast hne),
      ((Nat.digits 10 n).dropLast.reverse).map digitChar, ?_, ?_, ?_⟩
    · simp only [natChars, if_neg h0, reverse_getLast_cons (Nat.digits 10 n) hne,
        List.map_cons]
    · rw [digitChar_toNat _ hm10]; omega
    · rw [digitChar_toNat _ hm10]; omega

theorem numStop_nodigit (rest : List Char) (h : numStop rest = true) :
    ∀ c, rest.head? = some c → isDigitCh c = false := by
  intro c hc
  cases rest with
  | nil => cases hc
  | cons d cs =>
    simp only [List.head?] at hc
    cases hc
    simp only [numStop, Bool.and_eq_true, Bool.not_eq_true'] at h
    exact h.1.1.1

theorem floatStart_eq_false (rest : List Char) (h : numStop rest = true) :
    floatStart rest = false := by
  cases rest with
  | nil => rfl
  | cons c cs =>
    simp only [numStop, Bool.and_eq_true, Bool.not_eq_true', bne_iff_ne] at h
    simp only [floatStart, Bool.or_eq_false_iff, decide_eq_false_iff_not]
    exact ⟨⟨h.1.1.2, h.1.2⟩, h.2⟩

theorem parseNum_natChars (n : Nat) (rest : List Char)
    (hr : ∀ c, rest.head? = some c → isDigitCh c = false)
    (hf : floatStart rest = false) :
    parseNum (natChars n ++ rest) = some ((n : Int), rest) := by
  obtain ⟨c, cs, hnc, hc1, hc2⟩ := natChars_head n
  have hcore := parseNumCore_natChars n rest hr
  rw [hnc] at hcore ⊢
  simp only [List.cons_append] at hcore ⊢
  simp only [parseNum]
  rw [if_neg (char_ne_of_toNat_ne (by
    rw [show ('-').toNat = 45 from rfl]; omega)), hcore]
  dsimp only
  rw [if_neg (by simp [hf])]

theorem parseNum_intChars (i : Int) (rest : List Char) (h : numStop rest = true) :
    parseNum (intChars i ++ rest) = some (i, rest) := by
  have hr := numStop_nodigit rest h
  have hf := floatStart_eq_false rest h
  by_cases hneg : i < 0
  · simp only [intChars, if_pos hneg, List.cons_append, parseNum]
    simp only [if_true]
    rw [parseNumCore_natChars i.natAbs rest hr]
    dsimp only
    rw [if_neg (by simp [hf])]
    simp only [Option.some.injEq, Prod.mk.injEq, and_true]
    omega
  · simp only [intChars, if_neg hneg]
    rw [parseNum_natChars i.natAbs rest hr hf]
    simp only [Option.some.injEq, Prod.mk.injEq, and_true]
    omega

/-! Head characters, whitespace and length facts used by the round trip. -/

theorem escapeChar_length_pos (c : Char) : 1 ≤ (escapeChar c).length := by
  unfold escapeChar
  repeat' split
  all_goals simp [hex4]

theorem escape_flatten_length (body : List Char) :
    body.length ≤ ((body.map escapeChar).flatten).length := by
  induction body with
  | nil => simp
  | cons c cs ih =>
    simp only [List.map_cons, List.flatten_cons, List.length_append, List.length_cons]
    have := escapeChar_length_pos c
    omega

theorem fuelV_pos (v : JVal) : 1 ≤ fuelV v := by
  cases v <;> simp [fuelV]

theorem intChars_head (i : Int) :
    ∃ c cs, intChars i = c :: cs ∧ (c.toNat = 45 ∨ (48 ≤ c.toNat ∧ c.toNat ≤ 57)) := by
  by_cases hneg : i < 0
  · exact ⟨'-', natChars i.natAbs, by simp [intChars, hneg], Or.inl rfl⟩
  · obtain ⟨c, cs, h1, h2, h3⟩ := natChars_head i.natAbs
    exact ⟨c, cs, by simp [intChars, hneg, h1], Or.inr ⟨h2, h3⟩⟩

theorem dumpV_head (ind : Option Nat) (cur : Nat) (v : JVal) :
    ∃ c cs, dumpV ind cur v = c :: cs ∧ isJsonWs c = false ∧ c ≠ ']' ∧ c ≠ '\x7d' := by
  cases v with
  | jnull => exact ⟨'n', _, rfl, by decide, by decide, by decide⟩
  | jbool b =>
    refine b.rec ?_ ?_
    · exact ⟨'f', _, rfl, by decide, by decide, by decide⟩
    · exact ⟨'t', _, rfl, by decide, by decide, by decide⟩
  | jnum i =>
    obtain ⟨c, cs, h1, h2⟩ := intChars_head i
    refine ⟨c, cs, by simp [dumpV, h1], isJsonWs_eq_false (by omega) (by omega) (by omega) (by omega),
      char_ne_of_toNat_ne (by rw [show (']').toNat = 93 from rfl]; omega),
      char_ne_of_toNat_ne (by rw [show ('\x7d').toNat = 125 from rfl]; omega)⟩
  | jstr s => exact ⟨'"', _, rfl, by decide, by decide, by decide⟩
  | jarr a =>
    cases a with
    | anil => exact ⟨'[', _, rfl, by decide, by decide, by decide⟩
    | acons v t => exact ⟨'[', _, rfl, by decide, by decide, by decide⟩
  | jobj o =>
    cases o with
    | onil => exact ⟨'\x7b', _, rfl, by decide, by decide, by decide⟩
    | ocons k v t => exact ⟨'\x7b', _, rfl, by decide, by decide, by decide⟩

theorem skipWs_dumpV (ind : Option Nat) (cur : Nat) (v : JVal) (X : List Char) :
    skipWs (dumpV ind cur v ++ X) = dumpV ind cur v ++ X := by
  obtain ⟨c, cs, h1, h2, _, _⟩ := dumpV_head ind cur v
  rw [h1, List.cons_append, skipWs_cons_not c _ h2]

theorem itemSep_decomp (ind : Option Nat) (cur : Nat) :
    ∃ w, itemSep ind cur = ',' :: w ∧ ∀ c ∈ w, isJsonWs c = true := by
  cases ind with
  | none => exact ⟨[' '], rfl, by decide⟩
  | some k => exact ⟨nlIndent (some k) cur, rfl, nlIndent_ws (some k) cur⟩

theorem numStop_comma (l : List Char) : numStop (',' :: l) = true := rfl

theorem numStop_newline (l : List Char) : numStop ('\n' :: l) = true := rfl

theorem numStop_rbracket (l : List Char) : numStop (']' :: l) = true := rfl

theorem numStop_rbrace (l : List Char) : numStop ('\x7d' :: l) = true := rfl

theorem numStop_nlIndent (ind : Option Nat) (cur : Nat) (c : Char) (l : List Char)
    (hc : numStop (c :: l) = true) :
    numStop (nlIndent ind cur ++ c :: l) = true := by
  cases ind with
  | none => simpa [nlIndent] using hc
  | some k => rfl

theorem numStop_tailA (ind : Option Nat) (cur cur2 : Nat) (t : JArr) (r : List Char) :
    numStop (dumpA ind cur t ++ (nlIndent ind cur2 ++ ']' :: r)) = true := by
  cases t with
  | anil =>
    simp only [dumpA, List.nil_append]
    exact numStop_nlIndent ind cur2 ']' r (numStop_rbracket r)
  | acons v t =>
    obtain ⟨w, hw, _⟩ := itemSep_decomp ind cur
    simp only [dumpA, hw, List.cons_append, List.append_assoc]
    exact numStop_comma _

theorem numStop_tailO (ind : Option Nat) (cur cur2 : Nat) (t : JObj) (r : List Char) :
    numStop (dumpO ind cur t ++ (nlIndent ind cur2 ++ '\x7d' :: r)) = true := by
  cases t with
  | onil =>
    simp only [dumpO, List.nil_append]
    exact numStop_nlIndent ind cur2 '\x7d' r (numStop_rbrace r)
  | ocons k v t =>
    obtain ⟨w, hw, _⟩ := itemSep_decomp ind cur
    simp only [dumpO, hw, List.cons_append, List.append_assoc]
    exact numStop_comma _

theorem dumpV_jarr (ind : Option Nat) (cur : Nat) (a : JArr) :
    dumpV ind cur (JVal.jarr a) = '[' :: (arrInner ind cur a ++ [']']) := by
  cases a with
  | anil => rfl
  | acons v t => simp [dumpV, arrInner, List.append_assoc]

theorem dumpV_jobj (ind : Option Nat) (cur : Nat) (o : JObj) :
    dumpV ind cur (JVal.jobj o) = '\x7b' :: (objInner ind cur o ++ ['\x7d']) := by
  cases o with
  | onil => rfl
  | ocons k v t => simp [dumpV, objInner, List.append_assoc]

/-! The dump/parse round trip, by induction on fuel. -/

theorem char_eq_of_toNat_eq {a b : Char} (h : a.toNat = b.toNat) : a = b := by
  apply Char.ext
  exact UInt32.ext h

theorem parseArr_succ (n : Nat) (l : List Char) :
    parseArr (n + 1) l = parrCore (parseItems n) (skipWs l) := rfl

theorem parseObj_succ (n : Nat) (l : List Char) :
    parseObj (n + 1) l = pobjCore (parseMembers n) (skipWs l) := rfl

theorem parseItems_succ (n : Nat) (l : List Char) :
    parseItems (n + 1) l =
      (match parseVal n l with
       | some (v, r1) => pitemsAfter (parseItems n) v (skipWs r1)
       | none => none) := rfl

theorem parseMembers_succ_quote (n : Nat) (r : List Char) :
    parseMembers (n + 1) ('"' :: r) =
      (match parseStrBody (r.length + 1) r with
       | some (kc, r1) => pmemAfterKey (parseVal n) (parseMembers n) kc (skipWs r1)
       | none => none) := rfl

theorem roundV_zero : RoundV 0 := by
  intro v ind cur rest hf _
  exact absurd hf (by have := fuelV_pos v; omega)

theorem roundA_zero : RoundA 0 := by
  intro a ind cur rest hf
  exact absurd hf (by omega)

theorem roundO_zero : RoundO 0 := by
  intro o ind cur rest hf
  exact absurd hf (by omega)

theorem roundI_zero : RoundI 0 := by
  intro v t ind curI cur rest hf
  exact absurd hf (by omega)

theorem roundM_zero : RoundM 0 := by
  intro k v t ind curI cur rest hf
  exact absurd hf (by omega)

theorem parseVal_succ_num (n : Nat) (c : Char) (cs : List Char)
    (h1 : c.toNat = 45 ∨ (48 ≤ c.toNat ∧ c.toNat ≤ 57)) :
    parseVal (n + 1) (c :: cs) =
      (match parseNum (c :: cs) with
       | some (i, rest) => some (JVal.jnum i, rest)
       | none => none) := by
  have hstep : parseVal (n + 1) (c :: cs) = (parseFnsStep (parseFns n)).pv (c :: cs) := rfl
  rw [hstep]
  simp only [parseFnsStep]
  rw [if_neg (char_ne_of_toNat_ne (by rw [show ('n').toNat = 110 from rfl]; omega)),
    if_neg (char_ne_of_toNat_ne (by rw [show ('t').toNat = 116 from rfl]; omega)),
    if_neg (char_ne_of_toNat_ne (by rw [show ('f').toNat = 102 from rfl]; omega)),
    if_neg (char_ne_of_toNat_ne (by rw [show ('"').toNat = 34 from rfl]; omega)),
    if_neg (char_ne_of_toNat_ne (by rw [show ('\x7b').toNat = 123 from rfl]; omega)),
    if_neg (char_ne_of_toNat_ne (by rw [show ('[').toNat = 91 from rfl]; omega)),
    if_pos (by
      rcases h1 with h | h
      · simp [char_eq_of_toNat_eq (show c.toNat = ('-').toNat from h)]
      · simp [Bool.or_eq_true, (isDigitCh_iff c).mpr ⟨h.1, h.2⟩])]

theorem roundA_step (m : Nat) (hI : RoundI m) : RoundA (m + 1) := by
  intro a ind cur rest hfa
  cases a with
  | anil =>
    simp only [arrInner, List.nil_append]
    rfl
  | acons v t =>
    simp only [arrInner, List.append_assoc]
    rw [parseArr_succ, skipWs_nlIndent, skipWs_dumpV]
    obtain ⟨c, cs, hc1, hc2, hc3, hc4⟩ := dumpV_head ind (cur + indentStep ind) v
    rw [hc1, List.cons_append]
    simp only [parrCore]
    rw [if_neg hc3, ← List.cons_append, ← hc1]
    have hb : fuelV v + fuelA t + 1 ≤ m := by
      simp only [fuelA] at hfa
      omega
    rw [hI v t ind (cur + indentStep ind) cur rest hb]
    rfl

theorem roundO_step (m : Nat) (hM : RoundM m) : RoundO (m + 1) := by
  intro o ind cur rest hfo
  cases o with
  | onil =>
    simp only [objInner, List.nil_append]
    rfl
  | ocons k v t =>
    simp only [objInner, List.append_assoc, escStr, List.cons_append, List.nil_append]
    rw [parseObj_succ, skipWs_nlIndent]
    rw [skipWs_cons_not '"' _ (by decide)]
    simp only [pobjCore]
    rw [if_neg (by decide)]
    have hb : fuelV v + fuelO t + 1 ≤ m := by
      simp only [fuelO] at hfo
      omega
    have hm := hM k v t ind (cur + indentStep ind) cur rest hb
    simp only [escStr, List.cons_append, List.append_assoc, List.nil_append] at hm
    rw [hm]
    rfl

theorem roundI_step (m : Nat) (hV : RoundV m) (hI : RoundI m) : RoundI (m + 1) := by
  intro v t ind curI cur rest hb
  rw [parseItems_succ]
  have hv : fuelV v ≤ m := by omega
  rw [hV v ind curI _ hv (numStop_tailA ind curI cur t rest)]
  dsimp only
  cases t with
  | anil =>
    simp only [dumpA, List.nil_append]
    rw [skipWs_nlIndent, skipWs_cons_not ']' _ (by decide)]
    simp only [pitemsAfter]
  | acons w t2 =>
    obtain ⟨w0, hw0, hw0ws⟩ := itemSep_decomp ind curI
    simp only [dumpA, hw0, List.cons_append, List.append_assoc]
    rw [skipWs_cons_not ',' _ (by decide)]
    simp only [pitemsAfter]
    rw [skipWs_ws_append w0 _ hw0ws, skipWs_dumpV]
    have hb2 : fuelV w + fuelA t2 + 1 ≤ m := by
      simp only [fuelA] at hb
      omega
    rw [hI w t2 ind curI cur rest hb2]
    rfl

theorem roundM_step (m : Nat) (hV : RoundV m) (hM : RoundM m) : RoundM (m + 1) := by
  intro k v t ind curI cur rest hb
  simp only [escStr, List.cons_append, List.append_assoc, List.nil_append]
  rw [parseMembers_succ_quote]
  rw [parseStrBody_escBody k.toList _ _ (by
    simp only [List.length_append, List.length_cons]
    have := escape_flatten_length k.toList
    omega)]
  dsimp only
  rw [skipWs_cons_not ':' _ (by decide)]
  simp only [pmemAfterKey]
  rw [show (' ' :: (dumpV ind curI v ++ (dumpO ind curI t ++ (nlIndent ind cur ++ '\x7d' :: rest)))) =
    [' '] ++ (dumpV ind curI v ++ (dumpO ind curI t ++ (nlIndent ind cur ++ '\x7d' :: rest))) from rfl]
  rw [skipWs_ws_append [' '] _ (by decide), skipWs_dumpV]
  have hv : fuelV v ≤ m := by omega
  rw [hV v ind curI _ hv (numStop_tailO ind curI cur t rest)]
  dsimp only
  cases t with
  | onil =>
    simp only [dumpO, List.nil_append]
    rw [skipWs_nlIndent, skipWs_cons_not '\x7d' _ (by decide)]
    simp only [pmemAfterVal]
    rfl
  | ocons k2 w t2 =>
    obtain ⟨w0, hw0, hw0ws⟩ := itemSep_decomp ind curI
    simp only [dumpO, hw0, List.cons_append, List.append_assoc, escStr, List.nil_append]
    rw [skipWs_cons_not ',' _ (by decide)]
    simp only [pmemAfterVal]
    rw [skipWs_ws_append w0 _ hw0ws, skipWs_cons_not '"' _ (by decide)]
    have hb2 : fuelV w + fuelO t2 + 1 ≤ m := by
      simp only [fuelO] at hb
      omega
    have hm2 := hM k2 w t2 ind curI cur rest hb2
    simp only [escStr, List.cons_append, List.append_assoc, List.nil_append] at hm2
    rw [hm2]
    rfl

theorem parseVal_succ_quote (n : Nat) (r : List Char) :
    parseVal (n + 1) ('"' :: r) =
      (match parseStrBody (r.length + 1) r with
       | some (body, rest2) => some (JVal.jstr (String.mk body), rest2)
       | none => none) := rfl

theorem parseVal_succ_lbracket (n : Nat) (r : List Char) :
    parseVal (n + 1) ('[' :: r) = parseArr n r := rfl

theorem parseVal_succ_lbrace (n : Nat) (r : List Char) :
    parseVal (n + 1) ('\x7b' :: r) = parseObj n r := rfl

theorem roundV_step (m : Nat) (hA : RoundA m) (hO : RoundO m) : RoundV (m + 1) := by
  intro v ind cur rest hfv hstop
  cases v with
  | jnull => rfl
  | jbool b => cases b <;> rfl
  | jnum i =>
    obtain ⟨c, cs, h1, h2⟩ := intChars_head i
    have hpn := parseNum_intChars i rest hstop
    rw [h1, List.cons_append] at hpn
    have hd : dumpV ind cur (JVal.jnum i) = intChars i := rfl
    rw [hd, h1, List.cons_append, parseVal_succ_num m c (cs ++ rest) h2, hpn]
  | jstr s =>
    have hd : dumpV ind cur (JVal.jstr s) =
        '"' :: ((s.toList.map escapeChar).flatten ++ ['"']) := rfl
    rw [hd, List.cons_append, List.append_assoc]
    simp only [List.singleton_append]
    rw [parseVal_succ_quote]
    rw [parseStrBody_escBody s.toList rest _ (by
      simp only [List.length_append, List.length_cons]
      have := escape_flatten_length s.toList
      omega)]
    rfl
  | jarr a =>
    rw [dumpV_jarr, List.cons_append, List.append_assoc]
    simp only [List.singleton_append]
    rw [parseVal_succ_lbracket]
    exact hA a ind cur rest (by simp only [fuelV] at hfv; omega)
  | jobj o =>
    rw [dumpV_jobj, List.cons_append, List.append_assoc]
    simp only [List.singleton_append]
    rw [parseVal_succ_lbrace]
    exact hO o ind cur rest (by simp only [fuelV] at hfv; omega)

theorem roundAll (n : Nat) : RoundV n ∧ RoundA n ∧ RoundO n ∧ RoundI n ∧ RoundM n := by
  induction n with
  | zero => exact ⟨roundV_zero, roundA_zero, roundO_zero, roundI_zero, roundM_zero⟩
  | succ m ih =>
    obtain ⟨hV, hA, hO, hI, hM⟩ := ih
    exact ⟨roundV_step m hA hO, roundA_step m hI, roundO_step m hM,
      roundI_step m hV hI, roundM_step m hV hM⟩

theorem roundV_all (n : Nat) : RoundV n := (roundAll n).1

/-! The fuel `jsonLoads` allots (twice the input length plus eight)
covers the measure `fuelV` of the dumped value. -/

mutual
theorem boundV : ∀ (ind : Option Nat) (cur : Nat) (v : JVal),
    fuelV v ≤ 2 * (dumpV ind cur v).length
  | ind, cur, JVal.jnull => by simp [fuelV, dumpV]
  | ind, cur, JVal.jbool b => by cases b <;> simp [fuelV, dumpV]
  | ind, cur, JVal.jnum i => by
    have h1 : 1 ≤ (intChars i).length := by
      obtain ⟨c, cs, hc, _⟩ := intChars_head i
      simp [hc]
    have hd : dumpV ind cur (JVal.jnum i) = intChars i := rfl
    rw [hd]
    simp only [fuelV]
    omega
  | ind, cur, JVal.jstr s => by
    simp only [fuelV, dumpV, escStr, List.length_cons, List.length_append]
    omega
  | ind, cur, JVal.jarr JArr.anil => by simp [fuelV, fuelA, dumpV]
  | ind, cur, JVal.jarr (JArr.acons v t) => by
    have h1 := boundV ind (cur + indentStep ind) v
    have h2 := boundA ind (cur + indentStep ind) t
    simp only [fuelV, fuelA, dumpV, List.length_cons, List.length_append]
    omega
  | ind, cur, JVal.jobj JObj.onil => by simp [fuelV, fuelO, dumpV]
  | ind, cur, JVal.jobj (JObj.ocons k v t) => by
    have h1 := boundV ind (cur + indentStep ind) v
    have h2 := boundO ind (cur + indentStep ind) t
    simp only [fuelV, fuelO, dumpV, List.length_cons, List.length_append]
    omega
theorem boundA : ∀ (ind : Option Nat) (cur : Nat) (t : JArr),
    fuelA t ≤ 2 * (dumpA ind cur t).length
  | _, _, JArr.anil => by simp [fuelA, dumpA]
  | ind, cur, JArr.acons v t => by
    have h1 := boundV ind cur v
    have h2 := boundA ind cur t
    have h3 : 1 ≤ (itemSep ind cur).length := by
      obtain ⟨w0, hw0, _⟩ := itemSep_decomp ind cur
      simp [hw0]
    simp only [fuelA, dumpA, List.length_append]
    omega
theorem boundO : ∀ (ind : Option Nat) (cur : Nat) (t : JObj),
    fuelO t ≤ 2 * (dumpO ind cur t).length
  | _, _, JObj.onil => by simp [fuelO, dumpO]
  | ind, cur, JObj.ocons k v t => by
    have h1 := boundV ind cur v
    have h2 := boundO ind cur t
    simp only [fuelO, dumpO, List.length_append, List.length_cons]
    omega
end

/-- `json.loads` inverts `json.dumps` for every indent option. -/
theorem jsonLoads_pyDumps (ind : Option Nat) (v : JVal) :
    jsonLoads (pyDumps ind v) = some v := by
  have hd : (pyDumps ind v).toList = dumpV ind 0 v := rfl
  simp only [jsonLoads, hd]
  have hskip : skipWs (dumpV ind 0 v) = dumpV ind 0 v := by
    have h := skipWs_dumpV ind 0 v []
    simpa using h
  rw [hskip]
  have hb : fuelV v ≤ 2 * (dumpV ind 0 v).length + 8 := by
    have := boundV ind 0 v
    omega
  have hr := roundV_all (2 * (dumpV ind 0 v).length + 8) v ind 0 [] hb rfl
  rw [List.append_nil] at hr
  rw [hr]
  rfl

/-! Raw printable strings serialize to themselves; `str.strip` of the
rendered blocks. -/

theorem rawOkB_spec (s : String) (h : rawOkB s = true) :
    ∀ c ∈ s.toList, 32 ≤ c.toNat ∧ c.toNat ≤ 126 ∧ c ≠ '"' ∧ c ≠ '\\' ∧ c ≠ '`' := by
  intro c hc
  simp only [rawOkB, List.all_eq_true, Bool.and_eq_true, bne_iff_ne, decide_eq_true_eq] at h
  obtain ⟨⟨⟨⟨h1, h2⟩, h3⟩, h4⟩, h5⟩ := h c hc
  exact ⟨h1, h2, h3, h4, h5⟩

theorem escape_raw (l : List Char)
    (h : ∀ c ∈ l, 32 ≤ c.toNat ∧ c.toNat ≤ 126 ∧ c ≠ '"' ∧ c ≠ '\\' ∧ c ≠ '`') :
    (l.map escapeChar).flatten = l := by
  induction l with
  | nil => rfl
  | cons c cs ih =>
    obtain ⟨h1, h2, h3, h4, _⟩ := h c (List.mem_cons_self _ _)
    have he : escapeChar c = [c] := by
      simp only [escapeChar, if_neg h3, if_neg h4,
        if_neg (show ¬ c = '\x08' from char_ne_of_toNat_ne
          (by rw [show ('\x08').toNat = 8 from rfl]; omega)),
        if_neg (show ¬ c = '\x0c' from char_ne_of_toNat_ne
          (by rw [show ('\x0c').toNat = 12 from rfl]; omega)),
        if_neg (show ¬ c = '\n' from char_ne_of_toNat_ne
          (by rw [show ('\n').toNat = 10 from rfl]; omega)),
        if_neg (show ¬ c = '\x0d' from char_ne_of_toNat_ne
          (by rw [show ('\x0d').toNat = 13 from rfl]; omega)),
        if_neg (show ¬ c = '\t' from char_ne_of_toNat_ne
          (by rw [show ('\t').toNat = 9 from rfl]; omega)),
        if_pos (⟨h1, h2⟩ : 32 ≤ c.toNat ∧ c.toNat ≤ 126)]
    rw [List.map_cons, List.flatten_cons, he,
      ih (fun d hd => h d (List.mem_cons_of_mem _ hd))]
    rfl

theorem escStr_raw (s : String) (h : rawOkB s = true) :
    escStr s = '"' :: (s.toList ++ ['"']) := by
  simp only [escStr, escape_raw s.toList (rawOkB_spec s h)]

theorem dropWhile_ws_append (w X : List Char) (hw : ∀ c ∈ w, isPyWs c = true) :
    List.dropWhile isPyWs (w ++ X) = List.dropWhile isPyWs X := by
  induction w with
  | nil => rfl
  | cons c cs ih =>
    rw [List.cons_append, List.dropWhile_cons, if_pos (hw c (List.mem_cons_self _ _))]
    exact ih (fun d hd => hw d (List.mem_cons_of_mem _ hd))

theorem pyStrip_brace (mid w : List Char) (hw : ∀ c ∈ w, isPyWs c = true) :
    pyStrip ('\x7b' :: (mid ++ ('\x7d' :: w))) = '\x7b' :: (mid ++ ['\x7d']) := by
  unfold pyStrip
  rw [List.dropWhile_cons, if_neg (by decide)]
  rw [List.reverse_cons, List.reverse_append, List.reverse_cons]
  rw [List.append_assoc, List.append_assoc]
  rw [dropWhile_ws_append w.reverse _ (fun c hc => hw c (List.mem_reverse.mp hc))]
  rw [show ['\x7d'] ++ (mid.reverse ++ ['\x7b']) = '\x7d' :: (mid.reverse ++ ['\x7b']) from rfl]
  rw [List.dropWhile_cons, if_neg (by decide)]
  rw [List.reverse_cons, List.reverse_append, List.reverse_reverse]
  rfl

/-! Decoding one rendered block. -/

theorem parseStrBody_name (fuel : Nat) (rest : List Char) (h : 5 ≤ fuel) :
    parseStrBody fuel ('n' :: 'a' :: 'm' :: 'e' :: '"' :: rest) =
      some ("name".toList, rest) := by
  have hb := parseStrBody_escBody "name".toList rest fuel (by simpa using h)
  simpa using hb

theorem parseStrBody_arguments (fuel : Nat) (rest : List Char) (h : 10 ≤ fuel) :
    parseStrBody fuel
      ('a' :: 'r' :: 'g' :: 'u' :: 'm' :: 'e' :: 'n' :: 't' :: 's' :: '"' :: rest) =
      some ("arguments".toList, rest) := by
  have hb := parseStrBody_escBody "arguments".toList rest fuel (by simpa using h)
  simpa using hb

theorem blockBody_chars (ty args : String) (nm : String) (v : JVal)
    (hargs : jsonLoads args = some v) :
    blockBody ⟨ty, JVal.jstr nm, args⟩ =
      '\x7b' :: '\n' :: ' ' :: ' ' :: '"' :: 'n' :: 'a' :: 'm' :: 'e' :: '"' :: ':' :: ' ' :: '"' ::
        (((nm.toList ++
            ('"' :: ',' :: '\n' :: ' ' :: ' ' :: '"' :: 'a' :: 'r' :: 'g' :: 'u' ::
              'm' :: 'e' :: 'n' :: 't' :: 's' :: '"' :: ':' :: ' ' :: [])) ++
          dumpV (some 2) 0 v) ++ ('\n' :: '\x7d' :: '\n' :: [])) := by
  simp only [blockBody, hargs]
  rfl

theorem blockBody_strip (ty args : String) (nm : String) (v : JVal)
    (hargs : jsonLoads args = some v) :
    pyStrip (blockBody ⟨ty, JVal.jstr nm, args⟩) = strippedBlock nm v := by
  rw [blockBody_chars ty args nm v hargs]
  have hstrip := pyStrip_brace
    ('\n' :: ' ' :: ' ' :: '"' :: 'n' :: 'a' :: 'm' :: 'e' :: '"' :: ':' :: ' ' :: '"' ::
      (((nm.toList ++
          ('"' :: ',' :: '\n' :: ' ' :: ' ' :: '"' :: 'a' :: 'r' :: 'g' :: 'u' ::
            'm' :: 'e' :: 'n' :: 't' :: 's' :: '"' :: ':' :: ' ' :: [])) ++
        dumpV (some 2) 0 v) ++ ['\n'])) ['\n'] (by decide)
  simp only [List.cons_append, List.append_assoc, List.nil_append,
    List.singleton_append] at hstrip
  simp only [List.cons_append, List.append_assoc, List.nil_append, List.singleton_append]
  rw [hstrip]
  simp only [strippedBlock]

theorem skipWs_nl2sp (X : List Char) : skipWs ('\n' :: ' ' :: ' ' :: X) = skipWs X := by
  rw [show ('\n' :: ' ' :: ' ' :: X) = ['\n', ' ', ' '] ++ X from rfl]
  exact skipWs_ws_append _ _ (by decide)

theorem skipWs_sp (X : List Char) : skipWs (' ' :: X) = skipWs X := by
  rw [show (' ' :: X) = [' '] ++ X from rfl]
  exact skipWs_ws_append _ _ (by decide)

theorem skipWs_nl1 (X : List Char) : skipWs ('\n' :: X) = skipWs X := by
  rw [show ('\n' :: X) = ['\n'] ++ X from rfl]
  exact skipWs_ws_append _ _ (by decide)

theorem strippedBlock_loads (nm : String) (v : JVal) (hnm : rawOkB nm = true) :
    jsonLoads (String.mk (strippedBlock nm v)) = some (JVal.jobj (obj2 nm v)) := by
  simp only [jsonLoads, toList_mk]
  obtain ⟨k, hk⟩ : ∃ k, 2 * (strippedBlock nm v).length + 8 = k + 4 :=
    ⟨2 * (strippedBlock nm v).length + 4, by omega⟩
  have hlen : (dumpV (some 2) 0 v).length + 33 ≤ (strippedBlock nm v).length := by
    simp [strippedBlock, List.length_append, List.length_cons]
  have hfuelv : fuelV v ≤ k := by
    have hb := boundV (some 2) 0 v
    omega
  rw [hk]
  simp only [strippedBlock]
  rw [skipWs_cons_not '\x7b' _ (by decide)]
  rw [show k + 4 = (k + 3) + 1 from rfl, parseVal_succ_lbrace]
  rw [show k + 3 = (k + 2) + 1 from rfl, parseObj_succ]
  rw [skipWs_nl2sp, skipWs_cons_not '"' _ (by decide)]
  simp only [pobjCore]
  rw [if_neg (by decide)]
  rw [show k + 2 = (k + 1) + 1 from rfl, parseMembers_succ_quote]
  rw [parseStrBody_name _ _ (by simp [List.length_append, List.length_cons])]
  dsimp only
  rw [skipWs_cons_not ':' _ (by decide)]
  simp only [pmemAfterKey]
  rw [skipWs_sp, skipWs_cons_not '"' _ (by decide)]
  have hv1 := roundV_all (k + 1) (JVal.jstr nm) (some 2) 0
      (',' :: '\n' :: ' ' :: ' ' :: '"' :: 'a' :: 'r' :: 'g' :: 'u' :: 'm' :: 'e' :: 'n' ::
        't' :: 's' :: '"' :: ':' :: ' ' :: (dumpV (some 2) 0 v ++ ('\n' :: '\x7d' :: [])))
      (by simp [fuelV]) (numStop_comma _)
  rw [show dumpV (some 2) 0 (JVal.jstr nm) = escStr nm from rfl, escStr_raw nm hnm] at hv1
  simp only [List.cons_append, List.append_assoc, List.singleton_append,
    List.nil_append] at hv1
  rw [hv1]
  dsimp only
  rw [skipWs_cons_not ',' _ (by decide)]
  simp only [pmemAfterVal]
  rw [skipWs_nl2sp, skipWs_cons_not '"' _ (by decide)]
  rw [parseMembers_succ_quote]
  rw [parseStrBody_arguments _ _ (by simp [List.length_append, List.length_cons])]
  dsimp only
  rw [skipWs_cons_not ':' _ (by decide)]
  simp only [pmemAfterKey]
  rw [skipWs_sp, skipWs_dumpV]
  have hv2 := roundV_all k v (some 2) 0 ('\n' :: '\x7d' :: []) hfuelv (numStop_newline _)
  rw [hv2]
  dsimp only
  rw [skipWs_nl1, skipWs_cons_not '\x7d' _ (by decide)]
  simp only [pmemAfterVal]
  rfl

/-! The fenced-block scan on rendered content. -/

theorem scanToolBlocksF_succ (n : Nat) (l : List Char) :
    scanToolBlocksF (n + 1) l = scanStep (scanToolBlocksF n) l := rfl

theorem scanF_nil : ∀ n, scanToolBlocksF n [] = [] := by
  intro n
  cases n with
  | zero => rfl
  | succ m => rfl

theorem splitAtTicks_clean : ∀ (body after : List Char), (∀ c ∈ body, c ≠ '`') →
    splitAtTicks (body ++ ('`' :: '`' :: '`' :: after)) = some (body, after)
  | [], after, _ => by
    simp only [List.nil_append]
    rfl
  | c :: cs, after, h => by
    have hc := h c (List.mem_cons_self _ _)
    have ih := splitAtTicks_clean cs after (fun d hd => h d (List.mem_cons_of_mem _ hd))
    simp only [List.cons_append, splitAtTicks, List.append_eq]
    rw [if_neg (by
      simp only [show ("```".toList) = '`' :: '`' :: '`' :: [] from rfl,
        startsWithL, Bool.and_eq_true, beq_iff_eq]
      intro hh
      exact hc hh.1.symm), ih]

theorem scanF_skip : ∀ (pre X : List Char) (n : Nat), (∀ c ∈ pre, c ≠ '`') →
    scanToolBlocksF (pre.length + n) (pre ++ X) = scanToolBlocksF n X
  | [], X, n, _ => by simp
  | c :: cs, X, n, hp => by
    have hc := hp c (List.mem_cons_self _ _)
    have ih := scanF_skip cs X n (fun d hd => hp d (List.mem_cons_of_mem _ hd))
    rw [List.length_cons, List.cons_append]
    rw [show cs.length + 1 + n = (cs.length + n) + 1 from by omega]
    rw [scanToolBlocksF_succ]
    simp only [scanStep]
    rw [if_neg (by
      simp only [show ("```tool".toList) = '`' :: '`' :: '`' :: 't' :: 'o' :: 'o' :: 'l' :: [] from rfl,
        startsWithL, Bool.and_eq_true, beq_iff_eq]
      intro hh
      exact hc hh.1.symm)]
    exact ih

theorem scanF_block (body after b' : List Char) (n : Nat)
    (hbody : body = '\x7b' :: b') (ht : ∀ c ∈ body, c ≠ '`') :
    scanToolBlocksF (n + 1)
      ('`' :: '`' :: '`' :: 't' :: 'o' :: 'o' :: 'l' :: '\n' ::
        (body ++ ('`' :: '`' :: '`' :: after))) =
      body :: scanToolBlocksF n after := by
  rw [scanToolBlocksF_succ]
  simp only [scanStep]
  rw [if_pos (by rfl)]
  rw [show dropN 7 ('`' :: '`' :: '`' :: 't' :: 'o' :: 'o' :: 'l' :: '\n' ::
      (body ++ ('`' :: '`' :: '`' :: after))) =
    '\n' :: (body ++ ('`' :: '`' :: '`' :: after)) from rfl]
  rw [List.dropWhile_cons, if_pos (by decide)]
  rw [hbody, List.cons_append, List.dropWhile_cons, if_neg (by decide)]
  rw [← List.cons_append, ← hbody]
  rw [splitAtTicks_clean body after ht]

theorem str_data_append (a b : String) : (a ++ b).data = a.data ++ b.data := rfl

theorem join_data_aux : ∀ (l : List String) (acc : String),
    (l.foldl (· ++ ·) acc).data = acc.data ++ (l.map String.data).flatten
  | [], acc => by simp
  | s :: rest, acc => by
    simp only [List.foldl_cons, join_data_aux rest (acc ++ s), str_data_append,
      List.map_cons, List.flatten_cons, List.append_assoc]

theorem join_data (l : List String) :
    (String.join l).data = (l.map String.data).flatten := by
  have h := join_data_aux l ""
  simpa [String.join] using h

theorem toolCallBlock_chars (ty args : String) (nm : String) (v : JVal)
    (hargs : jsonLoads args = some v) :
    (toolCallBlock ⟨ty, JVal.jstr nm, args⟩).toList =
      '`' :: '`' :: '`' :: 't' :: 'o' :: 'o' :: 'l' :: '\n' ::
      '\x7b' :: '\n' :: ' ' :: ' ' :: '"' :: 'n' :: 'a' :: 'm' :: 'e' :: '"' :: ':' :: ' ' :: '"' ::
        (((nm.toList ++
            ('"' :: ',' :: '\n' :: ' ' :: ' ' :: '"' :: 'a' :: 'r' :: 'g' :: 'u' ::
              'm' :: 'e' :: 'n' :: 't' :: 's' :: '"' :: ':' :: ' ' :: [])) ++
          dumpV (some 2) 0 v) ++
            ('\n' :: '\x7d' :: '\n' :: '`' :: '`' :: '`' :: '\n' :: '\n' :: [])) := by
  simp only [toolCallBlock, hargs]
  rfl

theorem toolCallBlock_decomp (ty args : String) (nm : String) (v : JVal)
    (hargs : jsonLoads args = some v) :
    (toolCallBlock ⟨ty, JVal.jstr nm, args⟩).toList =
      '`' :: '`' :: '`' :: 't' :: 'o' :: 'o' :: 'l' :: '\n' ::
        (blockBody ⟨ty, JVal.jstr nm, args⟩ ++ ('`' :: '`' :: '`' :: '\n' :: '\n' :: [])) := by
  rw [toolCallBlock_chars ty args nm v hargs, blockBody_chars ty args nm v hargs]
  simp [List.append_assoc]

theorem noTick_spec (l : List Char) (h : noTick l = true) : ∀ c ∈ l, c ≠ '`' := by
  intro c hc
  simp only [noTick, List.all_eq_true, bne_iff_ne] at h
  exact h c hc

theorem blockBody_noTick (ty args nm : String) (v : JVal)
    (hargs : jsonLoads args = some v) (hnm : rawOkB nm = true)
    (hd : noTick (dumpV (some 2) 0 v) = true) :
    ∀ c ∈ blockBody ⟨ty, JVal.jstr nm, args⟩, c ≠ '`' := by
  intro c hc hceq
  subst hceq
  rw [blockBody_chars ty args nm v hargs] at hc
  have h1 : '`' ∉ nm.toList := fun hmem => ((rawOkB_spec nm hnm) '`' hmem).2.2.2.2 rfl
  have h2 : '`' ∉ dumpV (some 2) 0 v := fun hmem => (noTick_spec _ hd '`' hmem) rfl
  simp [List.mem_cons, List.mem_append, h1, h2] at hc
  exact h1 hc

theorem scanF_blocksCore : ∀ (tcs : List EFnCall) (n : Nat),
    (∀ tc ∈ tcs, (∀ c ∈ blockBody tc, c ≠ '`') ∧ ∃ b', blockBody tc = '\x7b' :: b') →
    scanToolBlocksF (3 * tcs.length + n) (blocksCore tcs) = tcs.map blockBody
  | [], n, _ => by simp [blocksCore, scanF_nil]
  | [tc], n, h => by
    obtain ⟨ht, b', hb⟩ := h tc (List.mem_cons_self _ _)
    simp only [blocksCore]
    rw [show ("```tool".toList) = ['`', '`', '`', 't', 'o', 'o', 'l'] from rfl,
      show ("```".toList) = ['`', '`', '`'] from rfl]
    simp only [List.cons_append, List.nil_append]
    rw [show 3 * ([tc] : List EFnCall).length + n = (2 + n) + 1 from by
      simp only [List.length_cons, List.length_nil]; omega]
    rw [scanF_block (blockBody tc) [] b' (2 + n) hb ht]
    rw [scanF_nil]
    rfl
  | tc :: tc2 :: rest, n, h => by
    obtain ⟨ht, b', hb⟩ := h tc (List.mem_cons_self _ _)
    have ih := scanF_blocksCore (tc2 :: rest) n (fun d hd => h d (List.mem_cons_of_mem _ hd))
    simp only [blocksCore]
    rw [show ("```tool".toList) = ['`', '`', '`', 't', 'o', 'o', 'l'] from rfl,
      show ("```".toList) = ['`', '`', '`'] from rfl]
    simp only [List.cons_append, List.nil_append]
    rw [show 3 * (tc :: tc2 :: rest).length + n =
        ((2 + (3 * (tc2 :: rest).length + n)) + 1) from by
      simp only [List.length_cons]; omega]
    rw [scanF_block (blockBody tc) ('\n' :: '\n' :: blocksCore (tc2 :: rest)) b' _ hb ht]
    have hs2 : scanToolBlocksF (2 + (3 * (tc2 :: rest).length + n))
        ('\n' :: '\n' :: blocksCore (tc2 :: rest)) =
        scanToolBlocksF (3 * (tc2 :: rest).length + n) (blocksCore (tc2 :: rest)) := by
      have hs := scanF_skip ['\n', '\n'] (blocksCore (tc2 :: rest))
        (3 * (tc2 :: rest).length + n) (by decide)
      rw [show (['\n', '\n'] : List Char).length + (3 * (tc2 :: rest).length + n) =
          2 + (3 * (tc2 :: rest).length + n) from by simp] at hs
      simpa using hs
    rw [hs2, ih]
    rfl

theorem blocksCore_length : ∀ (tcs : List EFnCall), 3 * tcs.length ≤ (blocksCore tcs).length + 1
  | [] => by simp [blocksCore]
  | [tc] => by
    simp only [blocksCore, List.length_append, List.length_cons, List.length_nil,
      show (("```tool".toList)).length = 7 from rfl, show (("```".toList)).length = 3 from rfl]
    omega
  | tc :: tc2 :: rest => by
    have ih := blocksCore_length (tc2 :: rest)
    simp only [List.length_cons] at ih ⊢
    simp only [blocksCore, List.length_append, List.length_cons,
      show (("```tool".toList)).length = 7 from rfl, show (("```".toList)).length = 3 from rfl]
    omega

theorem scan_content (pre : List Char) (tcs : List EFnCall)
    (hpre : ∀ c ∈ pre, c ≠ '`')
    (hgood : ∀ tc ∈ tcs, (∀ c ∈ blockBody tc, c ≠ '`') ∧ ∃ b', blockBody tc = '\x7b' :: b') :
    scanToolBlocks (pre ++ blocksCore tcs) = tcs.map blockBody := by
  simp only [scanToolBlocks]
  obtain ⟨n0, hn0⟩ : ∃ n0, (pre ++ blocksCore tcs).length + 1 =
      pre.length + (3 * tcs.length + n0) := by
    have hlen := blocksCore_length tcs
    exact ⟨(blocksCore tcs).length + 1 - 3 * tcs.length, by
      simp only [List.length_append]; omega⟩
  rw [hn0, scanF_skip pre _ _ hpre, scanF_blocksCore tcs n0 hgood]

theorem blockToCall_blockBody (ty args nm : String) (v : JVal)
    (hnm : rawOkB nm = true) (hargs : jsonLoads args = some v) :
    blockToCall (blockBody ⟨ty, JVal.jstr nm, args⟩) =
      some ⟨JVal.jstr nm, pyDumps none v⟩ := by
  simp only [blockToCall, blockBody_strip ty args nm v hargs, strippedBlock_loads nm v hnm]
  rfl

theorem extractLoop_blockBodies : ∀ (tcs : List EFnCall),
    (∀ tc ∈ tcs, ∃ nm v, tc.name = JVal.jstr nm ∧ rawOkB nm = true ∧
      jsonLoads tc.argumentsStr = some v) →
    extractLoop (tcs.map blockBody) =
      tcs.map (fun tc => ⟨tc.name, pyDumps none ((jsonLoads tc.argumentsStr).getD JVal.jnull)⟩)
  | [], _ => rfl
  | tc :: rest, h => by
    obtain ⟨nm, v, hn, hrv, hargs⟩ := h tc (List.mem_cons_self _ _)
    have ih := extractLoop_blockBodies rest (fun d hd => h d (List.mem_cons_of_mem _ hd))
    obtain ⟨ty, name, args⟩ := tc
    replace hn : name = JVal.jstr nm := hn
    subst hn
    simp only [List.map_cons, extractLoop]
    rw [blockToCall_blockBody ty args nm v hrv hargs, ih]
    simp only [hargs]
    rfl

theorem flatten_blocks : ∀ (tcs : List EFnCall),
    (∀ tc ∈ tcs, ∃ nm v, tc.name = JVal.jstr nm ∧ jsonLoads tc.argumentsStr = some v) →
    tcs ≠ [] →
    (tcs.map (fun tc => (toolCallBlock tc).toList)).flatten =
      blocksCore tcs ++ ('\n' :: '\n' :: [])
  | [], _, hne => absurd rfl hne
  | [tc], h, _ => by
    obtain ⟨nm, v, hn, hargs⟩ := h tc (List.mem_cons_self _ _)
    obtain ⟨ty, name, args⟩ := tc
    replace hn : name = JVal.jstr nm := hn
    subst hn
    simp only [List.map_cons, List.map_nil, List.flatten_cons, List.flatten_nil,
      List.append_nil]
    rw [toolCallBlock_decomp ty args nm v hargs]
    simp only [blocksCore]
    rw [show ("```tool".toList) = ['`', '`', '`', 't', 'o', 'o', 'l'] from rfl,
      show ("```".toList) = ['`', '`', '`'] from rfl]
    simp [List.append_assoc]
  | tc :: tc2 :: rest, h, _ => by
    obtain ⟨nm, v, hn, hargs⟩ := h tc (List.mem_cons_self _ _)
    have ih := flatten_blocks (tc2 :: rest) (fun d hd => h d (List.mem_cons_of_mem _ hd))
      (by simp)
    obtain ⟨ty, name, args⟩ := tc
    replace hn : name = JVal.jstr nm := hn
    subst hn
    simp only [List.map_cons, List.flatten_cons]
    simp only [List.map_cons, List.flatten_cons] at ih
    rw [ih, toolCallBlock_decomp ty args nm v hargs]
    simp only [blocksCore]
    rw [show ("```tool".toList) = ['`', '`', '`', 't', 'o', 'o', 'l'] from rfl,
      show ("```".toList) = ['`', '`', '`'] from rfl]
    simp [List.append_assoc]

theorem pyStrip_clean (a b : Char) (mid w : List Char)
    (ha : isPyWs a = false) (hb : isPyWs b = false) (hw : ∀ c ∈ w, isPyWs c = true) :
    pyStrip (a :: (mid ++ (b :: w))) = a :: (mid ++ [b]) := by
  unfold pyStrip
  rw [List.dropWhile_cons, if_neg (by simp [ha])]
  rw [List.reverse_cons, List.reverse_append, List.reverse_cons]
  rw [List.append_assoc, List.append_assoc]
  rw [dropWhile_ws_append w.reverse _ (fun c hc => hw c (List.mem_reverse.mp hc))]
  rw [show [b] ++ (mid.reverse ++ [a]) = b :: (mid.reverse ++ [a]) from rfl]
  rw [List.dropWhile_cons, if_neg (by simp [hb])]
  rw [List.reverse_cons, List.reverse_append, List.reverse_reverse]
  rfl

theorem blocksCore_tick_decomp : ∀ (tcs : List EFnCall), tcs ≠ [] →
    ∃ inner, blocksCore tcs = '`' :: (inner ++ ['`'])
  | [], h => absurd rfl h
  | [tc], _ => by
    refine ⟨'`' :: '`' :: 't' :: 'o' :: 'o' :: 'l' :: '\n' :: (blockBody tc ++ ['`', '`']), ?_⟩
    simp only [blocksCore]
    rw [show ("```tool".toList) = ['`', '`', '`', 't', 'o', 'o', 'l'] from rfl,
      show ("```".toList) = ['`', '`', '`'] from rfl]
    simp [List.append_assoc]
  | tc :: tc2 :: rest, _ => by
    obtain ⟨inner, hi⟩ := blocksCore_tick_decomp (tc2 :: rest) (by simp)
    refine ⟨'`' :: '`' :: 't' :: 'o' :: 'o' :: 'l' :: '\n' ::
      (blockBody tc ++ ('`' :: '`' :: '`' :: '\n' :: '\n' :: '`' :: inner)), ?_⟩
    simp only [blocksCore]
    rw [show ("```tool".toList) = ['`', '`', '`', 't', 'o', 'o', 'l'] from rfl,
      show ("```".toList) = ['`', '`', '`'] from rfl, hi]
    simp [List.append_assoc]

theorem pyStrip_blocksCore (tcs : List EFnCall) (hne : tcs ≠ []) :
    pyStrip (blocksCore tcs ++ ('\n' :: '\n' :: [])) = blocksCore tcs := by
  obtain ⟨inner, hi⟩ := blocksCore_tick_decomp tcs hne
  rw [hi]
  rw [show ('`' :: (inner ++ ['`'])) ++ ('\n' :: '\n' :: []) =
      '`' :: (inner ++ ('`' :: ['\n', '\n'])) from by simp]
  rw [pyStrip_clean '`' '`' inner ['\n', '\n'] (by decide) (by decide) (by decide)]

/-- C3 (amended): converting an assistant tool-call message to textual
form and back preserves the tool-call names, the parsed arguments and the
function type, in order, provided the content and the rendered calls are
fence-safe: the content has no backtick, every call is function-typed,
every name is printable ASCII without quote, backslash or backtick, and
every `arguments` string parses as JSON whose serialization has no
backtick. -/
theorem roundtrip_amended (content : String) (tcs : List EFnCall)
    (hcontent : noTick content.toList = true)
    (hne : tcs ≠ [])
    (hgood : ∀ tc ∈ tcs, tc.type = "function" ∧ ∃ nm v,
      tc.name = JVal.jstr nm ∧ rawOkB nm = true ∧
      jsonLoads tc.argumentsStr = some v ∧ noTick (dumpV (some 2) 0 v) = true) :
    ∃ m2 : ChatMsg,
      convert_non_fncall_messages_to_fncall_messages
        (convert_fn_messages_to_non_fn_messages [⟨"assistant", some content, tcs⟩]) =
        some [m2] ∧
      m2.role = "assistant" ∧ m2.content = none ∧
      m2.toolCalls.map EFnCall.name = tcs.map EFnCall.name ∧
      m2.toolCalls.map (fun tc => jsonLoads tc.argumentsStr) =
        tcs.map (fun tc => jsonLoads tc.argumentsStr) ∧
      m2.toolCalls.map EFnCall.type = tcs.map EFnCall.type := by
  have hnames : ∀ tc ∈ tcs, ∃ nm v, tc.name = JVal.jstr nm ∧
      jsonLoads tc.argumentsStr = some v := by
    intro tc htc
    obtain ⟨_, nm, v, hn, _, hargs, _⟩ := hgood tc htc
    exact ⟨nm, v, hn, hargs⟩
  have hnames2 : ∀ tc ∈ tcs, ∃ nm v, tc.name = JVal.jstr nm ∧ rawOkB nm = true ∧
      jsonLoads tc.argumentsStr = some v := by
    intro tc htc
    obtain ⟨_, nm, v, hn, hraw, hargs, _⟩ := hgood tc htc
    exact ⟨nm, v, hn, hraw, hargs⟩
  have hgood2 : ∀ tc ∈ tcs,
      (∀ c ∈ blockBody tc, c ≠ '`') ∧ ∃ b', blockBody tc = '\x7b' :: b' := by
    intro tc htc
    obtain ⟨_, nm, v, hn, hraw, hargs, hdump⟩ := hgood tc htc
    have hteq : tc = ⟨tc.type, JVal.jstr nm, tc.argumentsStr⟩ := by rw [← hn]
    constructor
    · rw [hteq]
      exact blockBody_noTick tc.type tc.argumentsStr nm v hargs hraw hdump
    · rw [hteq]
      exact ⟨_, blockBody_chars tc.type tc.argumentsStr nm v hargs⟩
  -- the textual form produced by convert_fn
  have hfilter : tcs.filter (fun tc => tc.type == "function") = tcs :=
    List.filter_eq_self.mpr (fun tc htc => by
      simp [beq_iff_eq, (hgood tc htc).1])
  obtain ⟨tc0, tcrest, rfl⟩ : ∃ a b, tcs = a :: b := by
    cases tcs with
    | nil => exact absurd rfl hne
    | cons a b => exact ⟨a, b, rfl⟩
  have hcf : convert_fn_messages_to_non_fn_messages
      [⟨"assistant", some content, tc0 :: tcrest⟩] =
      [⟨"assistant", some (content ++ "\n\n" ++
        String.mk (pyStrip (String.join ((tc0 :: tcrest).map toolCallBlock)).toList)), []⟩] := by
    simp only [convert_fn_messages_to_non_fn_messages, List.map_cons, List.map_nil]
    rw [if_pos (show (("assistant" == "assistant") && !(tc0 :: tcrest).isEmpty) = true from rfl)]
    rw [hfilter]
    rfl
  rw [hcf]
  -- the blocks, stripped
  have hjoin : (String.join ((tc0 :: tcrest).map toolCallBlock)).toList =
      blocksCore (tc0 :: tcrest) ++ ('\n' :: '\n' :: []) := by
    have hj := join_data ((tc0 :: tcrest).map toolCallBlock)
    rw [List.map_map] at hj
    rw [show (String.data ∘ toolCallBlock) =
      (fun tc => (toolCallBlock tc).toList) from rfl] at hj
    rw [show (String.join ((tc0 :: tcrest).map toolCallBlock)).toList =
      (String.join ((tc0 :: tcrest).map toolCallBlock)).data from rfl, hj]
    exact flatten_blocks (tc0 :: tcrest) hnames (by simp)
  have hstrip : pyStrip (String.join ((tc0 :: tcrest).map toolCallBlock)).toList =
      blocksCore (tc0 :: tcrest) := by
    rw [hjoin]
    exact pyStrip_blocksCore (tc0 :: tcrest) (by simp)
  -- the full content char list
  have hc' : (content ++ "\n\n" ++
      String.mk (pyStrip (String.join ((tc0 :: tcrest).map toolCallBlock)).toList)).toList =
      (content.toList ++ ['\n', '\n']) ++ blocksCore (tc0 :: tcrest) := by
    rw [show (content ++ "\n\n" ++
        String.mk (pyStrip (String.join ((tc0 :: tcrest).map toolCallBlock)).toList)).toList =
      (content.data ++ ('\n' :: '\n' :: [])) ++
        pyStrip (String.join ((tc0 :: tcrest).map toolCallBlock)).toList from rfl]
    rw [hstrip]
    rfl
  -- the extraction
  have hpre : ∀ c ∈ content.toList ++ ['\n', '\n'], c ≠ '`' := by
    intro c hc
    rcases List.mem_append.mp hc with h | h
    · exact noTick_spec _ hcontent c h
    · simp only [List.mem_cons, List.not_mem_nil, or_false] at h
      rcases h with rfl | rfl <;> decide
  have hx : extract_tool_calls_from_content (content ++ "\n\n" ++
      String.mk (pyStrip (String.join ((tc0 :: tcrest).map toolCallBlock)).toList)) =
      (tc0 :: tcrest).map (fun tc =>
        ⟨tc.name, pyDumps none ((jsonLoads tc.argumentsStr).getD JVal.jnull)⟩) := by
    simp only [extract_tool_calls_from_content]
    rw [hc', scan_content _ _ hpre hgood2]
    exact extractLoop_blockBodies (tc0 :: tcrest) hnames2
  -- the conversion back
  refine ⟨⟨"assistant", none, ((tc0 :: tcrest).map (fun tc =>
      (⟨tc.name, pyDumps none ((jsonLoads tc.argumentsStr).getD JVal.jnull)⟩ : ExtractedCall))).map
        (fun ec : ExtractedCall => (⟨"function", ec.name, ec.argumentsStr⟩ : EFnCall))⟩,
    ?_, rfl, rfl, ?_, ?_, ?_⟩
  · simp only [convert_non_fncall_messages_to_fncall_messages]
    rw [if_pos (show (("assistant" : String) == "assistant") = true from rfl)]
    rw [hx]
    simp only [List.map_cons, List.isEmpty_cons, Option.map_some']
    rfl
  · simp only [List.map_map]
    rfl
  · simp only [List.map_map]
    apply List.map_congr_left
    intro tc htc
    obtain ⟨_, nm, v, hn, _, hargs, _⟩ := hgood tc htc
    simp only [Function.comp_apply, hargs, Option.getD_some]
    exact jsonLoads_pyDumps none v
  · simp only [List.map_map]
    apply List.map_congr_left
    intro tc htc
    exact ((hgood tc htc).1).symm

theorem roundtrip_amended_witness :
    ∃ m2 : ChatMsg,
      convert_non_fncall_messages_to_fncall_messages
        (convert_fn_messages_to_non_fn_messages
          [⟨"assistant", some "hi", [⟨"function", JVal.jstr "get", "\x7b\x7d"⟩]⟩]) =
        some [m2] ∧
      m2.role = "assistant" ∧ m2.content = none ∧
      m2.toolCalls.map EFnCall.name =
        [(⟨"function", JVal.jstr "get", "\x7b\x7d"⟩ : EFnCall)].map EFnCall.name ∧
      m2.toolCalls.map (fun tc => jsonLoads tc.argumentsStr) =
        [(⟨"function", JVal.jstr "get", "\x7b\x7d"⟩ : EFnCall)].map
          (fun tc => jsonLoads tc.argumentsStr) ∧
      m2.toolCalls.map EFnCall.type =
        [(⟨"function", JVal.jstr "get", "\x7b\x7d"⟩ : EFnCall)].map EFnCall.type :=
  roundtrip_amended "hi" [⟨"function", JVal.jstr "get", "\x7b\x7d"⟩] rfl (by simp)
    (by
      intro tc htc
      simp only [List.mem_cons, List.not_mem_nil, or_false] at htc
      subst htc
      exact ⟨rfl, "get", JVal.jobj JObj.onil, rfl, rfl, rfl, rfl⟩)
